import Mathlib

/-!
# un-utf8: the code point table and the UTF-8 scanner

A shallow embedding of `codepoints.c` (the sorted table and its bisection
lookup `reportCode`) and of `un-utf8.c` (`isCode` and the scanning loop of
`processInput`), followed by the properties established about them.

Conventions of the embedding.

* A C array read is total here: reading outside the array yields a `Fault`
  that names the array and the index, and the fault is propagated to the
  caller. Nothing is assumed about what such a read would deliver.
* What the program prints is recorded as a list of `Event`s, in order.
* The `int` variables on which `isCode` does bit arithmetic are kept as
  their 32-bit patterns (`Nat` below `2^32`); left shifts are reduced
  modulo `2^32` and signed comparisons go through `sint32`.
* `reportCode` computes `mid` with the 32-bit wrap of `start + end`, and
  `compare_codes` is the 32-bit wrap of the difference of the two codes.
* `loadTable` starts from the entries parsed off the records file; the
  library function `qsort` it calls is represented by its postcondition.
* Positions in the input buffer are natural numbers. The reading loop of
  `processInput` keeps `bytesRead <= cap` with `cap` an `int` that starts at
  1000 and doubles, so `location + 3` stays below `2^31` and the `int`
  arithmetic on positions never wraps.
-/

namespace UnUtf8

deriving instance DecidableEq for Except

/-! ## codepoints.h / codepoints.c -/

/-- Representation of a code point: `int code` and `char name[ MAX_NAME_LEN + 1 ]`. -/
structure CodePoint where
  code : Int
  name : String
deriving DecidableEq, Repr

/-- An array read outside its bounds, or a loop that was not given enough fuel. -/
inductive Fault where
  | bufferRead (i : Nat)
  | tableRead (i : Int)
  | fuel
deriving DecidableEq, Repr

/-- One line printed by the program: `name` goes to standard output, the
others are the diagnostics written to standard error. -/
inductive Event where
  | name (s : String)
  | invalidEncoding (code : Nat) (loc : Nat)
  | unknownCode (code : Nat) (loc : Nat)
  | invalidByte (byte : Nat) (loc : Nat)
  | incomplete (loc : Nat)
deriving DecidableEq, Repr

/-- The amount by which to resize the table or the search area used in binary search. -/
def RESIZE : Int := 2

/-- Value of an `int` expression after reduction to 32 bits (two's complement). -/
def wrap32 (x : Int) : Int := (x + 2147483648) % 4294967296 - 2147483648

/-- The read `table[ i ]`: a fault when `i` is not an index of the table. -/
def tableAt (table : List CodePoint) (i : Int) : Except Fault CodePoint :=
  if 0 ≤ i then
    match table[i.toNat]? with
    | some cp => .ok cp
    | none => .error (.tableRead i)
  else .error (.tableRead i)

/-- The loop `while ( start <= end )` of `reportCode`; yields the final `start`. -/
def bisect (table : List CodePoint) (code : Int) : Nat → Int → Int → Except Fault Int
  | 0, _, _ => .error .fuel
  | fuel + 1, start, end_ =>
    if start ≤ end_ then
      let mid := Int.tdiv (wrap32 (start + end_)) RESIZE
      match tableAt table mid with
      | .error f => .error f
      | .ok cp =>
        if code > cp.code then bisect table code fuel (mid + 1) end_
        else bisect table code fuel start (mid - 1)
    else .ok start

/-- The function `reportCode`: the returned flag and the line printed, if any. -/
def reportCode (table : List CodePoint) (code : Int) : Except Fault (Bool × List Event) :=
  let len : Int := table.length
  match bisect table code (table.length + 1) 0 (len - 1) with
  | .error f => .error f
  | .ok start =>
    match tableAt table start with
    | .error f => .error f
    | .ok cp =>
      if code = cp.code then .ok (true, [Event.name cp.name])
      else .ok (false, [])

/-- The function `compare_codes`: `p->code - q->code`, an `int` subtraction,
so the difference is reduced to 32 bits. -/
def compare_codes (p q : CodePoint) : Int := wrap32 (p.code - q.code)

/-- The function `loadTable`, from the entries parsed off the records file
(in file order) to the table it leaves: the last statement is
`qsort( table, len, sizeof( CodePoint * ), compare_codes )`, and `qsort`
belongs to the C library, so it is represented by what it promises: the
array holds the same elements, each adjacent pair in ascending order
according to the comparison function. -/
def loadTable (parsed table : List CodePoint) : Prop :=
  table.Perm parsed ∧ table.Chain' (fun p q => compare_codes p q ≤ 0)

/-- One iteration of the loop of `reportCode`: the new `start` and `end`. -/
def bisectBody (table : List CodePoint) (code : Int) (start end_ : Int) :
    Except Fault (Int × Int) :=
  let mid := Int.tdiv (wrap32 (start + end_)) RESIZE
  match tableAt table mid with
  | .error f => .error f
  | .ok cp => if code > cp.code then .ok (mid + 1, end_) else .ok (start, mid - 1)

/-! ## un-utf8.c -/

/-- A mask to check if a code is represented with 7 or less bits. -/
@[simp] def SM_TEST_MASK : Nat := 0x80
/-- A mask to check if a code is represented with 8 to 11 bits. -/
@[simp] def MED_TEST_MASK : Nat := 0xe0
/-- A mask to check if a code is represented with 12 to 16 bits. -/
@[simp] def LG_TEST_MASK : Nat := 0xf0
/-- A mask to check if a code is represented with 17 to 21 bits. -/
@[simp] def XL_TEST_MASK : Nat := 0xf8
/-- A moveable mask to test that a code is valid. -/
@[simp] def MOVE_TEST_MASK : Nat := 0x0000c0
/-- The number of bytes in a small code. -/
@[simp] def SM_BYTES : Nat := 1
/-- The number of bytes in a medium code. -/
@[simp] def MED_BYTES : Nat := 2
/-- The number of bytes in a large code. -/
@[simp] def LG_BYTES : Nat := 3
/-- The number of bytes in a extra large code. -/
@[simp] def XL_BYTES : Nat := 4
/-- Moveable mask used to select the low order bits. -/
@[simp] def MOVE_MASK : Nat := 0x00003F
/-- The number of bits to shift the moveable mask. -/
@[simp] def SHIFT : Nat := 8
/-- Mask used to select the low order bits of a small code. -/
@[simp] def SM_LOW_MASK : Nat := 0xFF
/-- Mask used to select the low order bits of the first byte of a medium code. -/
@[simp] def MED_LOW_MASK : Nat := 0x1F00
/-- Mask used to select the low order bits of the first byte of a large code. -/
@[simp] def LG_LOW_MASK : Nat := 0x0F0000
/-- Mask used to select the low order bits of the first byte of an extra large code. -/
@[simp] def XL_LOW_MASK : Nat := 0x07000000
/-- Max value stored in a small code. -/
@[simp] def MAX_SM : Int := 127
/-- Max value stored in a medium code. -/
@[simp] def MAX_MED : Int := 2047
/-- Max value stored in a large code. -/
@[simp] def MAX_LG : Int := 65535
/-- Mask to clear all bytes except the lowest. -/
@[simp] def CLEAR : Nat := 0x000000FF
/-- Expected result after testing a byte of a small code. -/
@[simp] def EXP_SM : Nat := 0
/-- Expected result after testing the first byte of a medium code. -/
@[simp] def EXP_MED : Nat := 0xc0
/-- Expected result after testing the first byte of a large code. -/
@[simp] def EXP_LG : Nat := 0xe0
/-- Expected result after testing the first byte of an extra large code. -/
@[simp] def EXP_XL : Nat := 0xf0
/-- Expected result after testing the remaining bytes of a code with moveable mask. -/
@[simp] def EXP_MOVE : Nat := 0x80
/-- The number of bits to shift a byte to the right. -/
@[simp] def SHIFT_R : Nat := 2

/-- One byte of the input file, as `fread` stores it. -/
abbrev Byte := Fin 256

/-- The 32-bit pattern of an `int`. -/
def bits32 (x : Int) : Nat := (x % 4294967296).toNat

/-- The `int` that a 32-bit pattern stands for. -/
def sint32 (w : Nat) : Int := if w < 2147483648 then (w : Int) else (w : Int) - 4294967296

/-- The operator `<<` on a 32-bit pattern. -/
def shl32 (w k : Nat) : Nat := (w <<< k) % 4294967296

/-- The operator `>>` on the pattern of an `int` (arithmetic shift). -/
def sar32 (w k : Nat) : Nat := bits32 (sint32 w >>> k)

/-- The read `c = b[ location ]` into a `char` (signed, so bytes from 0x80 up
are negative), converted by `( int ) c`. -/
def readChar (b : List Byte) (location : Nat) : Except Fault Int :=
  match b[location]? with
  | some v => .ok (if v.val < 128 then (v.val : Int) else (v.val : Int) - 256)
  | none => .error (.bufferRead location)

/-- The loop `for ( int i = 1; i < size; i++ )` of `isCode`, given the number
of iterations left. Yields `location`, `code`, `low` and `match`. -/
def contLoop (b : List Byte) : Nat → Nat → Nat → Nat → Except Fault (Nat × Nat × Nat × Bool)
  | 0, location, code, low => .ok (location, code, low, true)
  | left + 1, location, code, _ =>
    let location := location + 1
    let code := shl32 code SHIFT
    match readChar b location with
    | .error f => .error f
    | .ok c =>
      let low := CLEAR &&& bits32 c
      if low &&& MOVE_TEST_MASK ≠ EXP_MOVE then .ok (location, code, low, false)
      else contLoop b left location (code ||| low) low

/-- The loop `for ( int i = 0; i < size - 1; i++ )` of `isCode`, given the
number of iterations left and `i`. Yields `newCode` and `count`. -/
def gatherLoop (code : Nat) : Nat → Nat → Nat → Nat → Nat × Nat
  | 0, _, newCode, count => (newCode, count)
  | left + 1, i, newCode, count =>
    let byte := code &&& shl32 MOVE_MASK (SHIFT * i)
    gatherLoop code left (i + 1) (newCode ||| sar32 byte (SHIFT_R * i)) (count + 1)

/-- The function `isCode`: the returned flag and the lines printed. -/
def isCode (table : List CodePoint) (b : List Byte) (location tMask exp size lMask : Nat)
    (max : Int) : Except Fault (Bool × List Event) :=
  let loc := location
  match readChar b location with
  | .error f => .error f
  | .ok c =>
    let code := CLEAR &&& bits32 c
    if code &&& tMask = exp then
      match contLoop b (size - 1) location code 0 with
      | .error f => .error f
      | .ok (location, code, low, matched) =>
        if matched then
          let (newCode, count) := gatherLoop code (size - 1) 0 0 0
          let byte := sar32 (code &&& lMask) (SHIFT_R * count)
          let newCode := newCode ||| byte
          if sint32 newCode ≤ max then
            .ok (true, [Event.invalidEncoding newCode loc])
          else
            match reportCode table (sint32 newCode) with
            | .error f => .error f
            | .ok (found, out) =>
              if !found then .ok (true, out ++ [Event.unknownCode newCode loc])
              else .ok (true, out)
        else .ok (true, [Event.invalidByte low location])
    else .ok (false, [])

/-- The read `char c = buffer[ location ]` printed with `0x%hhX`: the byte itself. -/
def readByte (b : List Byte) (location : Nat) : Except Fault Nat :=
  match b[location]? with
  | some v => .ok v.val
  | none => .error (.bufferRead location)

/-- One iteration of the loop `while ( location < bytesRead )` of
`processInput`: the new `location` and the lines printed. -/
def step (table : List CodePoint) (buffer : List Byte) (location : Nat) :
    Except Fault (Nat × List Event) :=
  let bytesRead := buffer.length
  match isCode table buffer location SM_TEST_MASK EXP_SM SM_BYTES SM_LOW_MASK 0 with
  | .error f => .error f
  | .ok (true, out) => .ok (location + SM_BYTES, out)
  | .ok (false, out) =>
    if location + MED_BYTES - 1 < bytesRead then
      match isCode table buffer location MED_TEST_MASK EXP_MED MED_BYTES MED_LOW_MASK MAX_SM with
      | .error f => .error f
      | .ok (true, out2) => .ok (location + MED_BYTES, out ++ out2)
      | .ok (false, out2) =>
        if location + LG_BYTES - 1 < bytesRead then
          match isCode table buffer location LG_TEST_MASK EXP_LG LG_BYTES LG_LOW_MASK MAX_MED with
          | .error f => .error f
          | .ok (true, out3) => .ok (location + LG_BYTES, out ++ out2 ++ out3)
          | .ok (false, out3) =>
            if location + XL_BYTES - 1 < bytesRead then
              match isCode table buffer location XL_TEST_MASK EXP_XL XL_BYTES XL_LOW_MASK MAX_LG with
              | .error f => .error f
              | .ok (true, out4) => .ok (location + XL_BYTES, out ++ out2 ++ out3 ++ out4)
              | .ok (false, out4) =>
                match readByte buffer location with
                | .error f => .error f
                | .ok c =>
                  .ok (location + SM_BYTES,
                    out ++ out2 ++ out3 ++ out4 ++ [Event.invalidByte c location])
            else
              .ok (location + LG_BYTES, out ++ out2 ++ out3 ++ [Event.incomplete location])
        else
          .ok (location + MED_BYTES, out ++ out2 ++ [Event.incomplete location])
    else
      .ok (location + SM_BYTES, out ++ [Event.incomplete location])

/-- The loop `while ( location < bytesRead )` of `processInput`, with fuel. -/
def scanLoop (table : List CodePoint) (buffer : List Byte) : Nat → Nat → Except Fault (List Event)
  | fuel, location =>
    if location < buffer.length then
      match fuel with
      | 0 => .error .fuel
      | fuel + 1 =>
        match step table buffer location with
        | .error f => .error f
        | .ok (location, out) =>
          match scanLoop table buffer fuel location with
          | .error f => .error f
          | .ok rest => .ok (out ++ rest)
    else .ok []

/-- The function `processInput` on the bytes read from the input file: every
iteration advances `location`, so `bytesRead` iterations are enough fuel. -/
def processInput (table : List CodePoint) (buffer : List Byte) : Except Fault (List Event) :=
  scanLoop table buffer buffer.length 0

/-! ## Vocabulary of the properties -/

/-- The table is sorted ascending by code (equal codes allowed). -/
def SortedByCode (table : List CodePoint) : Prop :=
  table.Pairwise (fun p q => p.code ≤ q.code)

/-- The table is sorted ascending by code and no code occurs twice. -/
def StrictlySortedByCode (table : List CodePoint) : Prop :=
  table.Pairwise (fun p q => p.code < q.code)

/-- Reference linear scan of the table: the name of the first entry whose
code equals `code`, or not-found. -/
def linearSearch : List CodePoint → Int → Bool × List Event
  | [], _ => (false, [])
  | cp :: rest, code =>
    if cp.code = code then (true, [Event.name cp.name]) else linearSearch rest code

/-- The tier a lead byte declares: 1 for `0xxxxxxx`, 2 for `110xxxxx`, 3 for
`1110xxxx`, 4 for `11110xxx`, and 0 when the byte matches none of the four. -/
def leadTier (x : Nat) : Nat :=
  if x < 0x80 then 1
  else if x < 0xC0 then 0
  else if x < 0xE0 then 2
  else if x < 0xF0 then 3
  else if x < 0xF8 then 4
  else 0

/-- A continuation byte: top two bits `10`. -/
def isCont (x : Nat) : Prop := 0x80 ≤ x ∧ x < 0xC0

instance (x : Nat) : Decidable (isCont x) := by unfold isCont; infer_instance

/-- The largest value of the tier below tier `N` (the bound under which an
`N`-byte sequence is overlong). -/
def prevTierMax (N : Nat) : Nat :=
  if N = 2 then 127 else if N = 3 then 2047 else if N = 4 then 65535 else 0

/-- The minimal-tier UTF-8 encoding of a code point: 1 byte up to 0x7F,
2 bytes up to 0x7FF, 3 bytes up to 0xFFFF, otherwise 4 bytes. -/
def utf8Encode (c : Nat) : List Byte :=
  if c ≤ 0x7F then [Fin.ofNat c]
  else if c ≤ 0x7FF then [Fin.ofNat (0xC0 + c / 64), Fin.ofNat (0x80 + c % 64)]
  else if c ≤ 0xFFFF then
    [Fin.ofNat (0xE0 + c / 4096), Fin.ofNat (0x80 + c / 64 % 64), Fin.ofNat (0x80 + c % 64)]
  else
    [Fin.ofNat (0xF0 + c / 262144), Fin.ofNat (0x80 + c / 4096 % 64),
      Fin.ofNat (0x80 + c / 64 % 64), Fin.ofNat (0x80 + c % 64)]

/-- The value carried by a sequence of tier `N`: the low bits of the lead
byte followed by the low 6 bits of each of the bytes after it. -/
def seqValue : List Nat → Nat
  | [] => 0
  | [x0] => x0 % 128
  | [x0, x1] => x0 % 32 * 64 + x1 % 64
  | [x0, x1, x2] => x0 % 16 * 4096 + x1 % 64 * 64 + x2 % 64
  | x0 :: x1 :: x2 :: x3 :: _ => x0 % 8 * 262144 + x1 % 64 * 4096 + x2 % 64 * 64 + x3 % 64

/-- The values of the `N` bytes of the buffer from position `p` on. -/
def window (b : List Byte) (p N : Nat) : List Nat :=
  ((b.drop p).take N).map Fin.val

/-- A structurally valid `N`-byte sequence sits at position `p`: the byte at
`p` is a lead byte of tier `N`, the buffer holds `N` bytes from `p` on, and
the `N - 1` bytes after the lead are continuation bytes. -/
def WellFormedAt (b : List Byte) (p N : Nat) : Prop :=
  p + N ≤ b.length ∧ (∃ v0, b[p]? = some v0 ∧ leadTier v0.val = N) ∧
    ∀ j, 1 ≤ j → j < N → ∃ w, b[p + j]? = some w ∧ isCont w.val

/-- The statements of `isCode` that turn the assembled `code` into `newCode`. -/
def newCodeOf (code size lMask : Nat) : Nat :=
  let (newCode, count) := gatherLoop code (size - 1) 0 0 0
  newCode ||| sar32 (code &&& lMask) (SHIFT_R * count)

/-- The statements of `isCode` that follow the computation of `newCode`. -/
def resolve (table : List CodePoint) (newCode loc : Nat) (max : Int) :
    Except Fault (Bool × List Event) :=
  if sint32 newCode ≤ max then
    .ok (true, [Event.invalidEncoding newCode loc])
  else
    match reportCode table (sint32 newCode) with
    | .error f => .error f
    | .ok (found, out) =>
      if !found then .ok (true, out ++ [Event.unknownCode newCode loc])
      else .ok (true, out)

/-- What an iteration of the scanning loop does with a call of `isCode` that
returned true: the lines printed, and `location` moved on by `size`. -/
def advance (location size : Nat) (r : Except Fault (Bool × List Event)) :
    Except Fault (Nat × List Event) :=
  match r with
  | .error f => .error f
  | .ok (_, out) => .ok (location + size, out)

/-- A code as stored in the `int` field of a `CodePoint`. -/
def IsInt32 (x : Int) : Prop := -2147483648 ≤ x ∧ x < 2147483648

instance (x : Int) : Decidable (IsInt32 x) := by unfold IsInt32; infer_instance

/-- The loop of `processInput` once more, recording the `location` at the
start of every iteration and the `location` on leaving the loop. -/
def scanTrace (table : List CodePoint) (buffer : List Byte) :
    Nat → Nat → Except Fault (List Nat × Nat × List Event)
  | fuel, location =>
    if location < buffer.length then
      match fuel with
      | 0 => .error .fuel
      | fuel + 1 =>
        match step table buffer location with
        | .error f => .error f
        | .ok (location2, out) =>
          match scanTrace table buffer fuel location2 with
          | .error f => .error f
          | .ok (starts, final, rest) => .ok (location :: starts, final, out ++ rest)
    else .ok ([], location, [])

/-- The call of `isCode` that `processInput` makes for tier `N`. -/
def tierCall (table : List CodePoint) (b : List Byte) (p N : Nat) :
    Except Fault (Bool × List Event) :=
  if N = 1 then isCode table b p SM_TEST_MASK EXP_SM SM_BYTES SM_LOW_MASK 0
  else if N = 2 then isCode table b p MED_TEST_MASK EXP_MED MED_BYTES MED_LOW_MASK MAX_SM
  else if N = 3 then isCode table b p LG_TEST_MASK EXP_LG LG_BYTES LG_LOW_MASK MAX_MED
  else isCode table b p XL_TEST_MASK EXP_XL XL_BYTES XL_LOW_MASK MAX_LG

/-- The mask of the payload bits of a lead byte of tier `N`. -/
def leadMask (N : Nat) : Nat :=
  if N = 1 then 0x7F else if N = 2 then 0x1F else if N = 3 then 0x0F else 0x07

/-- The low 6 bits of each byte, most significant group first. -/
def contValue : List Nat → Nat
  | [] => 0
  | x :: rest => (x &&& 0x3F) * 64 ^ rest.length + contValue rest

/-- The value of the bytes `b0 .. b(N-1)`, each taken as 0..255:
`(b0 & m_N) * 64^(N-1)` plus the sum of `(b_i & 0x3F) * 64^(N-1-i)`. -/
def bitValue : List Nat → Nat
  | [] => 0
  | b0 :: rest => (b0 &&& leadMask (rest.length + 1)) * 64 ^ rest.length + contValue rest

/-- The strict upper bound of the values of tier `N`: `2^7`, `2^11`, `2^16`, `2^21`. -/
def tierBound (N : Nat) : Nat :=
  if N = 1 then 128 else if N = 2 then 2048 else if N = 3 then 65536 else 2097152

/-- The number of entries of the table whose code is strictly less than `code`. -/
def lowerBound (table : List CodePoint) (code : Int) : Nat :=
  table.countP (fun cp => decide (cp.code < code))

/-- The event is an `Incomplete code` line. -/
def Event.isIncomplete : Event → Bool
  | .incomplete _ => true
  | _ => false

/-- The name stored for `code`: that of the first entry of the table with
this code (the empty string when there is none). -/
def storedName : List CodePoint → Int → String
  | [], _ => ""
  | cp :: rest, code => if cp.code = code then cp.name else storedName rest code

/-- The lines of `isCode` when `newCode` is handed to the lookup: what
`reportCode( newCode )` prints, then `Unknown code` if it returned false. -/
def lookupOutcome (table : List CodePoint) (newCode loc : Nat) :
    Except Fault (Bool × List Event) :=
  match reportCode table (newCode : Int) with
  | .error f => .error f
  | .ok (found, out) =>
    if !found then .ok (true, out ++ [Event.unknownCode newCode loc])
    else .ok (true, out)

/-! ## The bisection of `reportCode` -/

theorem wrap32_of_range (x : Int) (h1 : -2147483648 ≤ x) (h2 : x < 2147483648) :
    wrap32 x = x := by
  unfold wrap32; omega

theorem tableAt_of_lt (table : List CodePoint) (i : Nat) (h : i < table.length) :
    tableAt table (i : Int) = .ok table[i] := by
  simp [tableAt, h]

theorem tableAt_of_ge (table : List CodePoint) (i : Nat) (h : table.length ≤ i) :
    tableAt table (i : Int) = .error (.tableRead i) := by
  simp [tableAt, List.getElem?_eq_none h]

theorem strictlySorted_sorted {table : List CodePoint} (h : StrictlySortedByCode table) :
    SortedByCode table :=
  List.Pairwise.imp (fun hpq => Int.le_of_lt hpq) h

theorem sorted_getElem_le {table : List CodePoint} (hs : SortedByCode table)
    (i j : Nat) (hi : i < table.length) (hj : j < table.length) (hij : i ≤ j) :
    table[i].code ≤ table[j].code := by
  rcases Nat.eq_or_lt_of_le hij with h | h
  · subst h; exact le_refl _
  · exact (List.pairwise_iff_getElem.mp hs) i j hi hj h

/-- The loop of `reportCode` on a sorted table of at most `2^30` entries:
started on a window `[lo, hi - 1]` below which all codes are smaller than
`code` and above which none is, with fuel for the window, it yields the
lower bound of `code`. -/
theorem bisect_lowerBound (table : List CodePoint) (code : Int)
    (hs : SortedByCode table) (hlen : table.length ≤ 1073741824) :
    ∀ (fuel lo hi : Nat), lo ≤ hi → hi ≤ table.length → hi - lo < fuel →
      (∀ (i : Nat) (h : i < table.length), i < lo → table[i].code < code) →
      (∀ (i : Nat) (h : i < table.length), hi ≤ i → code ≤ table[i].code) →
      ∃ s : Nat, bisect table code fuel (lo : Int) ((hi : Int) - 1) = .ok (s : Int) ∧
        s ≤ table.length ∧
        (∀ (i : Nat) (h : i < table.length), i < s → table[i].code < code) ∧
        (∀ (i : Nat) (h : i < table.length), s ≤ i → code ≤ table[i].code) := by
  intro fuel
  induction fuel with
  | zero => intro lo hi _ _ h; omega
  | succ fuel ih =>
    intro lo hi hlohi hhi hfuel hbelow habove
    unfold bisect
    by_cases hcond : (lo : Int) ≤ (hi : Int) - 1
    · have hlt : lo < hi := by omega
      have hmid : Int.tdiv (wrap32 ((lo : Int) + ((hi : Int) - 1))) RESIZE
          = (((lo + hi - 1) / 2 : Nat) : Int) := by
        rw [wrap32_of_range _ (by omega) (by omega)]
        unfold RESIZE
        rw [Int.tdiv_eq_ediv (by omega) (by omega)]
        omega
      have hm1 : lo ≤ (lo + hi - 1) / 2 := by omega
      have hm2 : (lo + hi - 1) / 2 < hi := by omega
      have hm3 : (lo + hi - 1) / 2 < table.length := by omega
      simp only [hcond, if_true, hmid, tableAt_of_lt table _ hm3]
      by_cases hgt : code > table[(lo + hi - 1) / 2].code
      · simp only [hgt, if_true]
        have := ih ((lo + hi - 1) / 2 + 1) hi (by omega) hhi (by omega)
          (fun i h hi2 => lt_of_le_of_lt
            (sorted_getElem_le hs i _ h hm3 (by omega)) hgt)
          habove
        simpa using this
      · simp only [hgt, if_false]
        have := ih lo ((lo + hi - 1) / 2) hm1 (by omega) (by omega) hbelow
          (fun i h hi2 => le_trans (not_lt.mp hgt)
            (sorted_getElem_le hs _ i hm3 h hi2))
        simpa using this
    · have heq : lo = hi := by omega
      subst heq
      simp only [hcond, if_false]
      exact ⟨lo, rfl, hhi, hbelow, habove⟩

/-- The whole of `reportCode` on a sorted table of at most `2^30` entries, in
terms of the lower bound `s` of `code`. -/
theorem reportCode_lowerBound (table : List CodePoint) (code : Int)
    (hs : SortedByCode table) (hlen : table.length ≤ 1073741824) :
    ∃ s : Nat, s ≤ table.length ∧
      (∀ (i : Nat) (h : i < table.length), i < s → table[i].code < code) ∧
      (∀ (i : Nat) (h : i < table.length), s ≤ i → code ≤ table[i].code) ∧
      reportCode table code =
        (match tableAt table (s : Int) with
         | .error f => .error f
         | .ok cp =>
           if code = cp.code then .ok (true, [Event.name cp.name]) else .ok (false, [])) := by
  obtain ⟨s, h1, h2, h3, h4⟩ := bisect_lowerBound table code hs hlen
    (table.length + 1) 0 table.length (Nat.zero_le _) (le_refl _) (by omega)
    (fun i _ hi => absurd hi (Nat.not_lt_zero i)) (fun i h hi => absurd h (by omega))
  refine ⟨s, h2, h3, h4, ?_⟩
  unfold reportCode
  simp only [Nat.cast_zero] at h1
  simp only [h1]

/-- On a sorted table of at most `2^30` entries that holds `code`, the final
slot of the bisection is the first entry with that code, and `reportCode`
prints its name. -/
theorem reportCode_present (table : List CodePoint) (code : Int)
    (hs : SortedByCode table) (hlen : table.length ≤ 1073741824)
    (hmem : ∃ cp ∈ table, cp.code = code) :
    ∃ (s : Nat) (h : s < table.length), table[s].code = code ∧
      (∀ (i : Nat) (hi : i < table.length), i < s → table[i].code < code) ∧
      reportCode table code = .ok (true, [Event.name table[s].name]) := by
  obtain ⟨s, _, hbelow, habove, hrep⟩ := reportCode_lowerBound table code hs hlen
  obtain ⟨cp, hcp, hcode⟩ := hmem
  obtain ⟨j, hj, hjeq⟩ := List.getElem_of_mem hcp
  have hsj : s ≤ j := by
    by_contra hcon
    have := hbelow j hj (by omega)
    rw [hjeq, hcode] at this
    exact lt_irrefl _ this
  have hslt : s < table.length := by omega
  have h1 : code ≤ table[s].code := habove s hslt (le_refl _)
  have h2 : table[s].code ≤ code := by
    have := sorted_getElem_le hs s j hslt hj hsj
    rwa [hjeq, hcode] at this
  have heq : table[s].code = code := le_antisymm h2 h1
  refine ⟨s, hslt, heq, hbelow, ?_⟩
  rw [hrep, tableAt_of_lt table s hslt]
  simp [heq]

/-- On a sorted table of at most `2^30` entries, a code that is absent but
not above every loaded code is looked up without a fault: not found. -/
theorem reportCode_absent_inside (table : List CodePoint) (code : Int)
    (hs : SortedByCode table) (hlen : table.length ≤ 1073741824)
    (habs : ∀ cp ∈ table, cp.code ≠ code) (hin : ∃ cp ∈ table, code ≤ cp.code) :
    reportCode table code = .ok (false, []) := by
  obtain ⟨s, _, hbelow, _, hrep⟩ := reportCode_lowerBound table code hs hlen
  obtain ⟨cp, hcp, hcode⟩ := hin
  obtain ⟨j, hj, hjeq⟩ := List.getElem_of_mem hcp
  have hsj : s ≤ j := by
    by_contra hcon
    have := hbelow j hj (by omega)
    rw [hjeq] at this
    exact absurd this (not_lt.mpr hcode)
  have hslt : s < table.length := by omega
  rw [hrep, tableAt_of_lt table s hslt]
  have hne : ¬ code = table[s].code := fun h =>
    habs table[s] (List.getElem_mem _) h.symm
  simp [hne]

theorem linearSearch_first (code : Int) :
    ∀ (table : List CodePoint) (s : Nat) (h : s < table.length),
      table[s].code = code →
      (∀ (i : Nat) (hi : i < table.length), i < s → table[i].code < code) →
      linearSearch table code = (true, [Event.name table[s].name]) := by
  intro table
  induction table with
  | nil => intro s h; simp at h
  | cons cp rest ih =>
    intro s h hcode hbelow
    cases s with
    | zero =>
      simp only [List.getElem_cons_zero] at hcode ⊢
      simp [linearSearch, hcode]
    | succ s =>
      have h0 := hbelow 0 (by simp) (by omega)
      simp only [List.getElem_cons_zero] at h0
      have hne : ¬ cp.code = code := ne_of_lt h0
      simp only [List.getElem_cons_succ] at hcode ⊢
      simp only [linearSearch, hne, if_false]
      refine ih s (by simpa using h) hcode ?_
      intro i hi his
      have := hbelow (i + 1) (by simpa using hi) (by omega)
      simpa using this

/-- On a table without duplicate codes the entry found is the entry asked for. -/
theorem reportCode_unique (table : List CodePoint) (cp : CodePoint)
    (hs : StrictlySortedByCode table) (hlen : table.length ≤ 1073741824)
    (hmem : cp ∈ table) :
    reportCode table cp.code = .ok (true, [Event.name cp.name]) := by
  obtain ⟨s, hslt, hcode, _, hrep⟩ :=
    reportCode_present table cp.code (strictlySorted_sorted hs) hlen ⟨cp, hmem, rfl⟩
  obtain ⟨j, hj, hjeq⟩ := List.getElem_of_mem hmem
  have hsj : s = j := by
    have hp := List.pairwise_iff_getElem.mp hs
    rcases Nat.lt_trichotomy s j with h | h | h
    · have := hp s j hslt hj h
      rw [hjeq, hcode] at this
      exact absurd this (lt_irrefl _)
    · exact h
    · have := hp j s hj hslt h
      rw [hjeq, hcode] at this
      exact absurd this (lt_irrefl _)
  subst hsj
  rw [hrep, hjeq]

/-- C2. Lookup hit: on a table sorted ascending by code with no duplicate
codes (and of at most `2^30` entries, the range in which `start + end` fits
an `int`), for every entry `cp` of the table `reportCode( cp.code )` returns
true and prints exactly the name stored in `cp`. -/
theorem reportCode_hit (table : List CodePoint) (cp : CodePoint)
    (hs : StrictlySortedByCode table) (hlen : table.length ≤ 1073741824)
    (hmem : cp ∈ table) :
    reportCode table cp.code = .ok (true, [Event.name cp.name]) :=
  reportCode_unique table cp hs hlen hmem

/-- Witness of C2 on a table of three entries. -/
theorem reportCode_hit_witness :
    reportCode [⟨0x41, "LATIN CAPITAL LETTER A"⟩, ⟨0x42, "LATIN CAPITAL LETTER B"⟩,
        ⟨0x20AC, "EURO SIGN"⟩] 0x20AC = .ok (true, [Event.name "EURO SIGN"]) :=
  reportCode_hit [⟨0x41, "LATIN CAPITAL LETTER A"⟩, ⟨0x42, "LATIN CAPITAL LETTER B"⟩,
    ⟨0x20AC, "EURO SIGN"⟩] ⟨0x20AC, "EURO SIGN"⟩
    (by unfold StrictlySortedByCode; decide) (by decide) (by decide)

/-- C3. Lookup miss, at the inputs where the code departs from it: on the
empty table, and on a one-entry table asked for a code above its only code,
`reportCode` reads `table[ start ]` with `start = len`, outside the table,
instead of returning false. -/
theorem reportCode_miss_reads_outside :
    reportCode [] 0x41 = .error (.tableRead 0) ∧
    reportCode [⟨0x41, "LATIN CAPITAL LETTER A"⟩] 0x42 = .error (.tableRead 1) := by
  constructor <;> decide

/-- C8. Lookup bounds, where the code departs from it: on every sorted table
of at most `2^30` entries and every code above all loaded codes (any code,
when the table is empty) the bisection ends with `start = len` and
`table[ start ]` is read without a bounds test, outside `0 .. len - 1`. -/
theorem reportCode_reads_slot_len (table : List CodePoint) (code : Int)
    (hs : SortedByCode table) (hlen : table.length ≤ 1073741824)
    (habove : ∀ cp ∈ table, cp.code < code) :
    reportCode table code = .error (.tableRead table.length) := by
  obtain ⟨s, hsle, _, hab, hrep⟩ := reportCode_lowerBound table code hs hlen
  have hseq : s = table.length := by
    by_contra hcon
    have hslt : s < table.length := by omega
    have h1 := hab s hslt (le_refl _)
    have h2 := habove table[s] (List.getElem_mem _)
    exact absurd h2 (not_lt.mpr h1)
  rw [hrep, hseq, tableAt_of_ge table _ (le_refl _)]

/-- Witness of C8 on the empty table. -/
theorem reportCode_reads_slot_len_witness :
    reportCode [] 0x20AC = .error (.tableRead 0) :=
  reportCode_reads_slot_len [] 0x20AC List.Pairwise.nil (by decide)
    (fun _ h => absurd h (List.not_mem_nil _))

/-- C9. Binary search agrees with linear search: on a table sorted ascending
by code (of at most `2^30` entries) and a code present in it, the flag and
the printed name of `reportCode` are those of the reference linear scan. -/
theorem reportCode_eq_linearSearch (table : List CodePoint) (code : Int)
    (hs : SortedByCode table) (hlen : table.length ≤ 1073741824)
    (hmem : ∃ cp ∈ table, cp.code = code) :
    reportCode table code = .ok (linearSearch table code) := by
  obtain ⟨s, hslt, hcode, hbelow, hrep⟩ := reportCode_present table code hs hlen hmem
  rw [hrep, linearSearch_first code table s hslt hcode hbelow]

/-- Witness of C9 on a table in which a code occurs twice. -/
theorem reportCode_eq_linearSearch_witness :
    reportCode [⟨0x41, "A"⟩, ⟨0x42, "B first"⟩, ⟨0x42, "B second"⟩, ⟨0x43, "C"⟩] 0x42
      = .ok (linearSearch [⟨0x41, "A"⟩, ⟨0x42, "B first"⟩, ⟨0x42, "B second"⟩, ⟨0x43, "C"⟩]
          0x42) :=
  reportCode_eq_linearSearch [⟨0x41, "A"⟩, ⟨0x42, "B first"⟩, ⟨0x42, "B second"⟩, ⟨0x43, "C"⟩]
    0x42 (by unfold SortedByCode; decide) (by decide) ⟨⟨0x42, "B first"⟩, by decide, rfl⟩

/-! ## Bit arithmetic of `isCode` -/

theorem and_shiftLeft_mask (x m k : Nat) : x &&& (m <<< k) = ((x >>> k) &&& m) <<< k := by
  apply Nat.eq_of_testBit_eq
  intro i
  simp only [Nat.testBit_and, Nat.testBit_shiftLeft, Nat.testBit_shiftRight]
  by_cases h : k ≤ i
  · simp [h, Nat.add_sub_cancel' h]
  · simp [h]

theorem and_field (x j k : Nat) :
    x &&& ((2 ^ j - 1) * 2 ^ k) = x / 2 ^ k % 2 ^ j * 2 ^ k := by
  have h := and_shiftLeft_mask x (2 ^ j - 1) k
  rw [Nat.and_pow_two_sub_one_eq_mod] at h
  simpa [Nat.shiftLeft_eq, Nat.shiftRight_eq_div_pow] using h

theorem and_FF (x : Nat) : x &&& 0xFF = x % 256 := Nat.and_pow_two_sub_one_eq_mod x 8
theorem and_3F (x : Nat) : x &&& 0x3F = x % 64 := Nat.and_pow_two_sub_one_eq_mod x 6
theorem and_3F00 (x : Nat) : x &&& 0x3F00 = x / 256 % 64 * 256 := and_field x 6 8
theorem and_3F0000 (x : Nat) : x &&& 0x3F0000 = x / 65536 % 64 * 65536 := and_field x 6 16
theorem and_1F00 (x : Nat) : x &&& 0x1F00 = x / 256 % 32 * 256 := and_field x 5 8
theorem and_0F0000 (x : Nat) : x &&& 0x0F0000 = x / 65536 % 16 * 65536 := and_field x 4 16
theorem and_07000000 (x : Nat) : x &&& 0x07000000 = x / 16777216 % 8 * 16777216 :=
  and_field x 3 24

theorem lor_add (a b k q : Nat) (ha : a < 2 ^ k) (hb : b = 2 ^ k * q) : a ||| b = a + b := by
  subst hb
  rw [Nat.lor_comm, ← Nat.mul_add_lt_is_or ha q, Nat.add_comm]

theorem sint32_of_lt (w : Nat) (h : w < 2147483648) : sint32 w = (w : Int) := by
  simp [sint32, h]

theorem sar32_of_lt (w k : Nat) (h : w < 2147483648) : sar32 w k = w / 2 ^ k := by
  have hsh : ((w : Int) >>> k) = ((w >>> k : Nat) : Int) := rfl
  unfold sar32 bits32
  rw [sint32_of_lt w h, hsh, Nat.shiftRight_eq_div_pow]
  have hle : w / 2 ^ k ≤ w := Nat.div_le_self _ _
  generalize w / 2 ^ k = d at hle ⊢
  have : (d : Int) % 4294967296 = (d : Int) := Int.emod_eq_of_lt (by omega) (by omega)
  rw [this, Int.toNat_natCast]

theorem shl32_of_lt (w k : Nat) (h : w * 2 ^ k < 4294967296) : shl32 w k = w * 2 ^ k := by
  unfold shl32
  rw [Nat.shiftLeft_eq, Nat.mod_eq_of_lt h]

/-- Masking with `CLEAR` undoes the sign extension of `( int ) c`. -/
theorem clear_char (v : Byte) :
    CLEAR &&& bits32 (if v.val < 128 then (v.val : Int) else (v.val : Int) - 256) = v.val := by
  have hv := v.isLt
  rw [Nat.and_comm]
  show bits32 _ &&& 0xFF = v.val
  rw [and_FF]
  unfold bits32
  split <;> omega

set_option maxRecDepth 100000 in
theorem test_SM (v : Byte) : v.val &&& SM_TEST_MASK = EXP_SM ↔ v.val < 0x80 := by
  revert v; decide

set_option maxRecDepth 100000 in
theorem test_MED (v : Byte) :
    v.val &&& MED_TEST_MASK = EXP_MED ↔ 0xC0 ≤ v.val ∧ v.val < 0xE0 := by
  revert v; decide

set_option maxRecDepth 100000 in
theorem test_LG (v : Byte) :
    v.val &&& LG_TEST_MASK = EXP_LG ↔ 0xE0 ≤ v.val ∧ v.val < 0xF0 := by
  revert v; decide

set_option maxRecDepth 100000 in
theorem test_XL (v : Byte) :
    v.val &&& XL_TEST_MASK = EXP_XL ↔ 0xF0 ≤ v.val ∧ v.val < 0xF8 := by
  revert v; decide

set_option maxRecDepth 100000 in
theorem test_MOVE (v : Byte) : v.val &&& MOVE_TEST_MASK = EXP_MOVE ↔ isCont v.val := by
  revert v; unfold isCont; decide

/-! ## `isCode`, statement by statement -/

theorem readChar_some (b : List Byte) (location : Nat) (v : Byte) (hv : b[location]? = some v) :
    readChar b location
      = .ok (if v.val < 128 then (v.val : Int) else (v.val : Int) - 256) := by
  simp [readChar, hv]

theorem isCode_unfold (table : List CodePoint) (b : List Byte)
    (location tMask exp size lMask : Nat) (max : Int) (v : Byte)
    (hv : b[location]? = some v) :
    isCode table b location tMask exp size lMask max =
      if v.val &&& tMask = exp then
        match contLoop b (size - 1) location v.val 0 with
        | .error f => .error f
        | .ok (location2, code, low, matched) =>
          if matched then resolve table (newCodeOf code size lMask) location max
          else .ok (true, [Event.invalidByte low location2])
      else .ok (false, []) := by
  unfold isCode
  rw [readChar_some b location v hv]
  simp only [clear_char]
  rfl

theorem isCode_false (table : List CodePoint) (b : List Byte)
    (location tMask exp size lMask : Nat) (max : Int) (v : Byte)
    (hv : b[location]? = some v) (hne : ¬ v.val &&& tMask = exp) :
    isCode table b location tMask exp size lMask max = .ok (false, []) := by
  rw [isCode_unfold table b location tMask exp size lMask max v hv, if_neg hne]

theorem contLoop_cont (b : List Byte) (left location code low : Nat) (v : Byte)
    (hv : b[location + 1]? = some v) (hc : isCont v.val) (hcode : code < 16777216) :
    contLoop b (left + 1) location code low
      = contLoop b left (location + 1) (code * 256 + v.val) v.val := by
  have hv2 := v.isLt
  rw [contLoop]
  simp only [readChar_some b (location + 1) v hv, clear_char]
  rw [if_neg (not_not.mpr ((test_MOVE v).mpr hc))]
  have hs : shl32 code SHIFT = 2 ^ 8 * code := by
    rw [shl32_of_lt code SHIFT (by simp only [SHIFT]; omega)]
    simp only [SHIFT]; omega
  rw [hs, ← Nat.mul_add_lt_is_or (by omega) code]
  congr 1
  omega

theorem contLoop_bad (b : List Byte) (left location code low : Nat) (v : Byte)
    (hv : b[location + 1]? = some v) (hc : ¬ isCont v.val) :
    contLoop b (left + 1) location code low
      = .ok (location + 1, shl32 code SHIFT, v.val, false) := by
  rw [contLoop]
  simp only [readChar_some b (location + 1) v hv, clear_char]
  rw [if_pos (fun h => hc ((test_MOVE v).mp h))]

/-! ## The value `newCode`, tier by tier -/

theorem newCodeOf_SM (x0 : Nat) (h0 : x0 < 256) :
    newCodeOf x0 SM_BYTES SM_LOW_MASK = x0 := by
  simp only [newCodeOf, gatherLoop, SM_BYTES, SM_LOW_MASK, SHIFT_R]
  rw [and_FF, Nat.mod_eq_of_lt h0, sar32_of_lt _ _ (by omega)]
  simp

theorem newCodeOf_MED (x0 x1 : Nat) (h1 : x1 < 256) :
    newCodeOf (x0 * 256 + x1) MED_BYTES MED_LOW_MASK = x0 % 32 * 64 + x1 % 64 := by
  simp only [newCodeOf, gatherLoop, MED_BYTES, MED_LOW_MASK, SHIFT_R, SHIFT, MOVE_MASK]
  rw [shl32_of_lt _ _ (by omega)]
  simp only [Nat.mul_zero, Nat.mul_one, Nat.pow_zero, Nat.zero_or, and_3F, and_1F00]
  rw [sar32_of_lt _ _ (by omega), sar32_of_lt _ _ (by omega)]
  have e0 : (x0 * 256 + x1) % 64 / 2 ^ 0 = x1 % 64 := by omega
  have e1 : (x0 * 256 + x1) / 256 % 32 * 256 / 2 ^ 2 = 2 ^ 6 * (x0 % 32) := by omega
  rw [e0, e1, lor_add (x1 % 64) _ 6 (x0 % 32) (by omega) rfl]
  omega

theorem newCodeOf_LG (x0 x1 x2 : Nat) (h1 : x1 < 256) (h2 : x2 < 256) :
    newCodeOf ((x0 * 256 + x1) * 256 + x2) LG_BYTES LG_LOW_MASK
      = x0 % 16 * 4096 + x1 % 64 * 64 + x2 % 64 := by
  simp only [newCodeOf, gatherLoop, LG_BYTES, LG_LOW_MASK, SHIFT_R, SHIFT, MOVE_MASK]
  rw [shl32_of_lt _ _ (by omega), shl32_of_lt _ _ (by omega)]
  simp only [Nat.mul_zero, Nat.mul_one, Nat.pow_zero, Nat.zero_or, Nat.zero_add, Nat.reduceAdd,
    Nat.reduceMul, Nat.reducePow, and_3F, and_3F00, and_0F0000]
  rw [sar32_of_lt _ _ (by omega), sar32_of_lt _ _ (by omega), sar32_of_lt _ _ (by omega)]
  have e0 : ((x0 * 256 + x1) * 256 + x2) % 64 / 2 ^ 0 = x2 % 64 := by omega
  have e1 : ((x0 * 256 + x1) * 256 + x2) / 256 % 64 * 256 / 2 ^ 2 = 2 ^ 6 * (x1 % 64) := by
    omega
  have e2 : ((x0 * 256 + x1) * 256 + x2) / 65536 % 16 * 65536 / 2 ^ 4
      = 2 ^ 12 * (x0 % 16) := by omega
  rw [e0, e1, e2, lor_add (x2 % 64) _ 6 (x1 % 64) (by omega) rfl,
    lor_add _ _ 12 (x0 % 16) (by omega) rfl]
  omega

theorem newCodeOf_XL (x0 x1 x2 x3 : Nat) (h1 : x1 < 256) (h2 : x2 < 256) (h3 : x3 < 256) :
    newCodeOf (((x0 * 256 + x1) * 256 + x2) * 256 + x3) XL_BYTES XL_LOW_MASK
      = x0 % 8 * 262144 + x1 % 64 * 4096 + x2 % 64 * 64 + x3 % 64 := by
  simp only [newCodeOf, gatherLoop, XL_BYTES, XL_LOW_MASK, SHIFT_R, SHIFT, MOVE_MASK]
  rw [shl32_of_lt _ _ (by omega), shl32_of_lt _ _ (by omega), shl32_of_lt _ _ (by omega)]
  simp only [Nat.mul_zero, Nat.mul_one, Nat.pow_zero, Nat.zero_or, Nat.zero_add, Nat.reduceAdd,
    Nat.reduceMul, Nat.reducePow, and_3F, and_3F00, and_3F0000, and_07000000]
  rw [sar32_of_lt _ _ (by omega), sar32_of_lt _ _ (by omega), sar32_of_lt _ _ (by omega),
    sar32_of_lt _ _ (by omega)]
  have e0 : (((x0 * 256 + x1) * 256 + x2) * 256 + x3) % 64 / 2 ^ 0 = x3 % 64 := by omega
  have e1 : (((x0 * 256 + x1) * 256 + x2) * 256 + x3) / 256 % 64 * 256 / 2 ^ 2
      = 2 ^ 6 * (x2 % 64) := by omega
  have e2 : (((x0 * 256 + x1) * 256 + x2) * 256 + x3) / 65536 % 64 * 65536 / 2 ^ 4
      = 2 ^ 12 * (x1 % 64) := by omega
  have e3 : (((x0 * 256 + x1) * 256 + x2) * 256 + x3) / 16777216 % 8 * 16777216 / 2 ^ 6
      = 2 ^ 18 * (x0 % 8) := by omega
  rw [e0, e1, e2, e3, lor_add (x3 % 64) _ 6 (x2 % 64) (by omega) rfl,
    lor_add _ _ 12 (x1 % 64) (by omega) rfl, lor_add _ _ 18 (x0 % 8) (by omega) rfl]
  omega

/-! ## `isCode` on each tier -/

theorem lt_length_of_getElem? {b : List Byte} {i : Nat} {v : Byte} (h : b[i]? = some v) :
    i < b.length := by
  obtain ⟨h2, _⟩ := List.getElem?_eq_some.mp h
  exact h2

theorem resolve_flag (table : List CodePoint) (newCode loc : Nat) (max : Int)
    (fl : Bool) (out : List Event) (h : resolve table newCode loc max = .ok (fl, out)) :
    fl = true := by
  unfold resolve at h
  split at h
  · cases h; rfl
  · split at h
    · cases h
    · split at h <;> cases h <;> rfl

theorem isCode_SM_eval (table : List CodePoint) (b : List Byte) (p : Nat) (v0 : Byte)
    (h0 : b[p]? = some v0) (hl : v0.val < 0x80) :
    isCode table b p SM_TEST_MASK EXP_SM SM_BYTES SM_LOW_MASK 0
      = resolve table v0.val p 0 := by
  rw [isCode_unfold table b p _ _ _ _ _ v0 h0, if_pos ((test_SM v0).mpr hl)]
  simp only [SM_BYTES, Nat.sub_self, contLoop, if_true]
  rw [← SM_BYTES, newCodeOf_SM v0.val v0.isLt]

theorem isCode_MED_eval (table : List CodePoint) (b : List Byte) (p : Nat) (v0 v1 : Byte)
    (h0 : b[p]? = some v0) (h1 : b[p + 1]? = some v1)
    (hl : 0xC0 ≤ v0.val ∧ v0.val < 0xE0) :
    isCode table b p MED_TEST_MASK EXP_MED MED_BYTES MED_LOW_MASK MAX_SM
      = if isCont v1.val then resolve table (v0.val % 32 * 64 + v1.val % 64) p MAX_SM
        else .ok (true, [Event.invalidByte v1.val (p + 1)]) := by
  have hv0 := v0.isLt
  rw [isCode_unfold table b p _ _ _ _ _ v0 h0, if_pos ((test_MED v0).mpr hl)]
  have hsz : MED_BYTES - 1 = 0 + 1 := rfl
  rw [hsz]
  by_cases c1 : isCont v1.val
  · rw [contLoop_cont b 0 p _ _ v1 h1 c1 (by omega), if_pos c1]
    simp only [contLoop, if_true]
    rw [newCodeOf_MED v0.val v1.val v1.isLt]
  · rw [contLoop_bad b 0 p _ _ v1 h1 c1, if_neg c1]
    simp

theorem isCode_LG_eval (table : List CodePoint) (b : List Byte) (p : Nat) (v0 v1 v2 : Byte)
    (h0 : b[p]? = some v0) (h1 : b[p + 1]? = some v1) (h2 : b[p + 2]? = some v2)
    (hl : 0xE0 ≤ v0.val ∧ v0.val < 0xF0) :
    isCode table b p LG_TEST_MASK EXP_LG LG_BYTES LG_LOW_MASK MAX_MED
      = if isCont v1.val then
          if isCont v2.val then
            resolve table (v0.val % 16 * 4096 + v1.val % 64 * 64 + v2.val % 64) p MAX_MED
          else .ok (true, [Event.invalidByte v2.val (p + 2)])
        else .ok (true, [Event.invalidByte v1.val (p + 1)]) := by
  have hv0 := v0.isLt
  have hv1 := v1.isLt
  rw [isCode_unfold table b p _ _ _ _ _ v0 h0, if_pos ((test_LG v0).mpr hl)]
  have hsz : LG_BYTES - 1 = 1 + 1 := rfl
  rw [hsz]
  by_cases c1 : isCont v1.val
  · rw [contLoop_cont b 1 p _ _ v1 h1 c1 (by omega), if_pos c1]
    by_cases c2 : isCont v2.val
    · rw [contLoop_cont b 0 (p + 1) _ _ v2 h2 c2 (by omega), if_pos c2]
      simp only [contLoop, if_true]
      rw [newCodeOf_LG v0.val v1.val v2.val v1.isLt v2.isLt]
    · rw [contLoop_bad b 0 (p + 1) _ _ v2 h2 c2, if_neg c2]
      simp
  · rw [contLoop_bad b 1 p _ _ v1 h1 c1, if_neg c1]
    simp

theorem isCode_XL_eval (table : List CodePoint) (b : List Byte) (p : Nat)
    (v0 v1 v2 v3 : Byte)
    (h0 : b[p]? = some v0) (h1 : b[p + 1]? = some v1) (h2 : b[p + 2]? = some v2)
    (h3 : b[p + 3]? = some v3) (hl : 0xF0 ≤ v0.val ∧ v0.val < 0xF8) :
    isCode table b p XL_TEST_MASK EXP_XL XL_BYTES XL_LOW_MASK MAX_LG
      = if isCont v1.val then
          if isCont v2.val then
            if isCont v3.val then
              resolve table
                (v0.val % 8 * 262144 + v1.val % 64 * 4096 + v2.val % 64 * 64 + v3.val % 64)
                p MAX_LG
            else .ok (true, [Event.invalidByte v3.val (p + 3)])
          else .ok (true, [Event.invalidByte v2.val (p + 2)])
        else .ok (true, [Event.invalidByte v1.val (p + 1)]) := by
  have hv0 := v0.isLt
  have hv1 := v1.isLt
  have hv2 := v2.isLt
  rw [isCode_unfold table b p _ _ _ _ _ v0 h0, if_pos ((test_XL v0).mpr hl)]
  have hsz : XL_BYTES - 1 = 2 + 1 := rfl
  rw [hsz]
  by_cases c1 : isCont v1.val
  · rw [contLoop_cont b 2 p _ _ v1 h1 c1 (by omega), if_pos c1]
    by_cases c2 : isCont v2.val
    · rw [contLoop_cont b 1 (p + 1) _ _ v2 h2 c2 (by omega), if_pos c2]
      by_cases c3 : isCont v3.val
      · rw [contLoop_cont b 0 (p + 1 + 1) _ _ v3 h3 c3 (by omega), if_pos c3]
        simp only [contLoop, if_true]
        rw [newCodeOf_XL v0.val v1.val v2.val v3.val v1.isLt v2.isLt v3.isLt]
      · rw [contLoop_bad b 0 (p + 1 + 1) _ _ v3 h3 c3, if_neg c3]
        simp
    · rw [contLoop_bad b 1 (p + 1) _ _ v2 h2 c2, if_neg c2]
      simp
  · rw [contLoop_bad b 2 p _ _ v1 h1 c1, if_neg c1]
    simp

theorem isCode_flag (table : List CodePoint) (b : List Byte)
    (location tMask exp size lMask : Nat) (max : Int) (v : Byte)
    (hv : b[location]? = some v) (hm : v.val &&& tMask = exp) (fl : Bool) (out : List Event)
    (h : isCode table b location tMask exp size lMask max = .ok (fl, out)) : fl = true := by
  rw [isCode_unfold table b location tMask exp size lMask max v hv, if_pos hm] at h
  split at h
  · cases h
  · split at h
    · exact resolve_flag _ _ _ _ _ _ h
    · cases h; rfl

/-! ## One iteration of the scanning loop, case by case -/

theorem step_SM (table : List CodePoint) (b : List Byte) (p : Nat) (v0 : Byte)
    (h0 : b[p]? = some v0) (hl : v0.val < 0x80) :
    step table b p
      = advance p SM_BYTES (isCode table b p SM_TEST_MASK EXP_SM SM_BYTES SM_LOW_MASK 0) := by
  unfold step
  cases hr : isCode table b p SM_TEST_MASK EXP_SM SM_BYTES SM_LOW_MASK 0 with
  | error f => rfl
  | ok r =>
    obtain ⟨fl, out⟩ := r
    have := isCode_flag table b p _ _ _ _ _ v0 h0 ((test_SM v0).mpr hl) fl out hr
    subst this
    rfl

theorem step_short1 (table : List CodePoint) (b : List Byte) (p : Nat) (v0 : Byte)
    (h0 : b[p]? = some v0) (hl : ¬ v0.val < 0x80) (hn : b.length ≤ p + 1) :
    step table b p = .ok (p + 1, [Event.incomplete p]) := by
  unfold step
  rw [isCode_false table b p _ _ _ _ _ v0 h0 (fun h => hl ((test_SM v0).mp h))]
  have hc : ¬ p + MED_BYTES - 1 < b.length := by simp only [MED_BYTES]; omega
  simp only [if_neg hc]
  rfl

theorem step_MED (table : List CodePoint) (b : List Byte) (p : Nat) (v0 : Byte)
    (h0 : b[p]? = some v0) (hl : 0xC0 ≤ v0.val ∧ v0.val < 0xE0) (hn : p + 1 < b.length) :
    step table b p
      = advance p MED_BYTES
          (isCode table b p MED_TEST_MASK EXP_MED MED_BYTES MED_LOW_MASK MAX_SM) := by
  unfold step
  rw [isCode_false table b p SM_TEST_MASK _ _ _ _ v0 h0
    (fun h => absurd ((test_SM v0).mp h) (by omega))]
  have hc : p + MED_BYTES - 1 < b.length := by simp only [MED_BYTES]; omega
  simp only [if_pos hc]
  cases hr : isCode table b p MED_TEST_MASK EXP_MED MED_BYTES MED_LOW_MASK MAX_SM with
  | error f => rfl
  | ok r =>
    obtain ⟨fl, out⟩ := r
    have := isCode_flag table b p _ _ _ _ _ v0 h0 ((test_MED v0).mpr hl) fl out hr
    subst this
    rfl

theorem step_short2 (table : List CodePoint) (b : List Byte) (p : Nat) (v0 : Byte)
    (h0 : b[p]? = some v0) (hl : 0x80 ≤ v0.val ∧ ¬ (0xC0 ≤ v0.val ∧ v0.val < 0xE0))
    (hn : b.length = p + 2) :
    step table b p = .ok (p + 2, [Event.incomplete p]) := by
  unfold step
  rw [isCode_false table b p SM_TEST_MASK _ _ _ _ v0 h0
    (fun h => absurd ((test_SM v0).mp h) (by omega))]
  have hc : p + MED_BYTES - 1 < b.length := by simp only [MED_BYTES]; omega
  simp only [if_pos hc]
  rw [isCode_false table b p MED_TEST_MASK _ _ _ _ v0 h0
    (fun h => hl.2 ((test_MED v0).mp h))]
  have hc2 : ¬ p + LG_BYTES - 1 < b.length := by simp only [LG_BYTES]; omega
  simp only [if_neg hc2]
  rfl

theorem step_LG (table : List CodePoint) (b : List Byte) (p : Nat) (v0 : Byte)
    (h0 : b[p]? = some v0) (hl : 0xE0 ≤ v0.val ∧ v0.val < 0xF0) (hn : p + 2 < b.length) :
    step table b p
      = advance p LG_BYTES
          (isCode table b p LG_TEST_MASK EXP_LG LG_BYTES LG_LOW_MASK MAX_MED) := by
  unfold step
  rw [isCode_false table b p SM_TEST_MASK _ _ _ _ v0 h0
    (fun h => absurd ((test_SM v0).mp h) (by omega))]
  have hc : p + MED_BYTES - 1 < b.length := by simp only [MED_BYTES]; omega
  simp only [if_pos hc]
  rw [isCode_false table b p MED_TEST_MASK _ _ _ _ v0 h0
    (fun h => absurd ((test_MED v0).mp h) (by omega))]
  have hc2 : p + LG_BYTES - 1 < b.length := by simp only [LG_BYTES]; omega
  simp only [if_pos hc2]
  cases hr : isCode table b p LG_TEST_MASK EXP_LG LG_BYTES LG_LOW_MASK MAX_MED with
  | error f => rfl
  | ok r =>
    obtain ⟨fl, out⟩ := r
    have := isCode_flag table b p _ _ _ _ _ v0 h0 ((test_LG v0).mpr hl) fl out hr
    subst this
    rfl

theorem step_short3 (table : List CodePoint) (b : List Byte) (p : Nat) (v0 : Byte)
    (h0 : b[p]? = some v0)
    (hl : 0x80 ≤ v0.val ∧ ¬ (0xC0 ≤ v0.val ∧ v0.val < 0xF0))
    (hn : b.length = p + 3) :
    step table b p = .ok (p + 3, [Event.incomplete p]) := by
  unfold step
  rw [isCode_false table b p SM_TEST_MASK _ _ _ _ v0 h0
    (fun h => absurd ((test_SM v0).mp h) (by omega))]
  have hc : p + MED_BYTES - 1 < b.length := by simp only [MED_BYTES]; omega
  simp only [if_pos hc]
  rw [isCode_false table b p MED_TEST_MASK _ _ _ _ v0 h0
    (fun h => absurd ((test_MED v0).mp h) (by omega))]
  have hc2 : p + LG_BYTES - 1 < b.length := by simp only [LG_BYTES]; omega
  simp only [if_pos hc2]
  rw [isCode_false table b p LG_TEST_MASK _ _ _ _ v0 h0
    (fun h => absurd ((test_LG v0).mp h) (by omega))]
  have hc3 : ¬ p + XL_BYTES - 1 < b.length := by simp only [XL_BYTES]; omega
  simp only [if_neg hc3]
  rfl

theorem step_XL (table : List CodePoint) (b : List Byte) (p : Nat) (v0 : Byte)
    (h0 : b[p]? = some v0) (hl : 0xF0 ≤ v0.val ∧ v0.val < 0xF8) (hn : p + 3 < b.length) :
    step table b p
      = advance p XL_BYTES
          (isCode table b p XL_TEST_MASK EXP_XL XL_BYTES XL_LOW_MASK MAX_LG) := by
  unfold step
  rw [isCode_false table b p SM_TEST_MASK _ _ _ _ v0 h0
    (fun h => absurd ((test_SM v0).mp h) (by omega))]
  have hc : p + MED_BYTES - 1 < b.length := by simp only [MED_BYTES]; omega
  simp only [if_pos hc]
  rw [isCode_false table b p MED_TEST_MASK _ _ _ _ v0 h0
    (fun h => absurd ((test_MED v0).mp h) (by omega))]
  have hc2 : p + LG_BYTES - 1 < b.length := by simp only [LG_BYTES]; omega
  simp only [if_pos hc2]
  rw [isCode_false table b p LG_TEST_MASK _ _ _ _ v0 h0
    (fun h => absurd ((test_LG v0).mp h) (by omega))]
  have hc3 : p + XL_BYTES - 1 < b.length := by simp only [XL_BYTES]; omega
  simp only [if_pos hc3]
  cases hr : isCode table b p XL_TEST_MASK EXP_XL XL_BYTES XL_LOW_MASK MAX_LG with
  | error f => rfl
  | ok r =>
    obtain ⟨fl, out⟩ := r
    have := isCode_flag table b p _ _ _ _ _ v0 h0 ((test_XL v0).mpr hl) fl out hr
    subst this
    rfl

theorem step_invalid (table : List CodePoint) (b : List Byte) (p : Nat) (v0 : Byte)
    (h0 : b[p]? = some v0)
    (hl : 0x80 ≤ v0.val ∧ ¬ (0xC0 ≤ v0.val ∧ v0.val < 0xF8)) (hn : p + 3 < b.length) :
    step table b p = .ok (p + 1, [Event.invalidByte v0.val p]) := by
  unfold step
  rw [isCode_false table b p SM_TEST_MASK _ _ _ _ v0 h0
    (fun h => absurd ((test_SM v0).mp h) (by omega))]
  have hc : p + MED_BYTES - 1 < b.length := by simp only [MED_BYTES]; omega
  simp only [if_pos hc]
  rw [isCode_false table b p MED_TEST_MASK _ _ _ _ v0 h0
    (fun h => absurd ((test_MED v0).mp h) (by omega))]
  have hc2 : p + LG_BYTES - 1 < b.length := by simp only [LG_BYTES]; omega
  simp only [if_pos hc2]
  rw [isCode_false table b p LG_TEST_MASK _ _ _ _ v0 h0
    (fun h => absurd ((test_LG v0).mp h) (by omega))]
  have hc3 : p + XL_BYTES - 1 < b.length := by simp only [XL_BYTES]; omega
  simp only [if_pos hc3]
  rw [isCode_false table b p XL_TEST_MASK _ _ _ _ v0 h0
    (fun h => absurd ((test_XL v0).mp h) (by omega))]
  simp only [readByte, h0]
  rfl

/-! ## Structurally valid sequences -/

theorem getElem?_of_lt (b : List Byte) (i : Nat) (h : i < b.length) :
    ∃ v, b[i]? = some v := ⟨b[i], List.getElem?_eq_getElem h⟩

theorem window_one (b : List Byte) (p : Nat) (v0 : Byte) (h0 : b[p]? = some v0) :
    window b p 1 = [v0.val] := by
  obtain ⟨l0, e0⟩ := List.getElem?_eq_some.mp h0
  unfold window
  rw [List.drop_eq_getElem_cons l0, e0]
  simp

theorem window_two (b : List Byte) (p : Nat) (v0 v1 : Byte)
    (h0 : b[p]? = some v0) (h1 : b[p + 1]? = some v1) :
    window b p 2 = [v0.val, v1.val] := by
  obtain ⟨l0, e0⟩ := List.getElem?_eq_some.mp h0
  obtain ⟨l1, e1⟩ := List.getElem?_eq_some.mp h1
  unfold window
  rw [List.drop_eq_getElem_cons l0, List.drop_eq_getElem_cons l1, e0, e1]
  simp

theorem window_three (b : List Byte) (p : Nat) (v0 v1 v2 : Byte)
    (h0 : b[p]? = some v0) (h1 : b[p + 1]? = some v1) (h2 : b[p + 2]? = some v2) :
    window b p 3 = [v0.val, v1.val, v2.val] := by
  obtain ⟨l0, e0⟩ := List.getElem?_eq_some.mp h0
  obtain ⟨l1, e1⟩ := List.getElem?_eq_some.mp h1
  obtain ⟨l2, e2⟩ := List.getElem?_eq_some.mp h2
  unfold window
  rw [List.drop_eq_getElem_cons l0, List.drop_eq_getElem_cons l1,
    List.drop_eq_getElem_cons l2, e0, e1, e2]
  simp

theorem window_four (b : List Byte) (p : Nat) (v0 v1 v2 v3 : Byte)
    (h0 : b[p]? = some v0) (h1 : b[p + 1]? = some v1) (h2 : b[p + 2]? = some v2)
    (h3 : b[p + 3]? = some v3) :
    window b p 4 = [v0.val, v1.val, v2.val, v3.val] := by
  obtain ⟨l0, e0⟩ := List.getElem?_eq_some.mp h0
  obtain ⟨l1, e1⟩ := List.getElem?_eq_some.mp h1
  obtain ⟨l2, e2⟩ := List.getElem?_eq_some.mp h2
  obtain ⟨l3, e3⟩ := List.getElem?_eq_some.mp h3
  unfold window
  rw [List.drop_eq_getElem_cons l0, List.drop_eq_getElem_cons l1,
    List.drop_eq_getElem_cons l2, List.drop_eq_getElem_cons l3, e0, e1, e2, e3]
  simp

theorem leadTier_one (x : Nat) : leadTier x = 1 ↔ x < 0x80 := by
  unfold leadTier; repeat' split
  all_goals omega

theorem leadTier_two (x : Nat) : leadTier x = 2 ↔ 0xC0 ≤ x ∧ x < 0xE0 := by
  unfold leadTier; repeat' split
  all_goals omega

theorem leadTier_three (x : Nat) : leadTier x = 3 ↔ 0xE0 ≤ x ∧ x < 0xF0 := by
  unfold leadTier; repeat' split
  all_goals omega

theorem leadTier_four (x : Nat) : leadTier x = 4 ↔ 0xF0 ≤ x ∧ x < 0xF8 := by
  unfold leadTier; repeat' split
  all_goals omega

theorem leadTier_zero (x : Nat) :
    leadTier x = 0 ↔ (0x80 ≤ x ∧ x < 0xC0) ∨ 0xF8 ≤ x := by
  unfold leadTier; repeat' split
  all_goals omega

theorem leadTier_le (x : Nat) : leadTier x ≤ 4 := by
  unfold leadTier; repeat' split
  all_goals omega

/-- An iteration of the scanning loop that starts on a structurally valid
sequence of tier `N`: `isCode` assembles the value of the sequence, the test
against `max` and the lookup follow, and `location` moves on by `N`. -/
theorem step_wellFormed (table : List CodePoint) (b : List Byte) (p N : Nat)
    (h1 : 1 ≤ N) (hw : WellFormedAt b p N) :
    step table b p
      = advance p N (resolve table (seqValue (window b p N)) p (prevTierMax N)) := by
  obtain ⟨hlen, ⟨v0, h0, hN⟩, hcont⟩ := hw
  have hN4 : N ≤ 4 := hN ▸ leadTier_le _
  have hcases : N = 1 ∨ N = 2 ∨ N = 3 ∨ N = 4 := by omega
  rcases hcases with h | h | h | h <;> subst h
  · rw [step_SM table b p v0 h0 ((leadTier_one _).mp hN),
      isCode_SM_eval table b p v0 h0 ((leadTier_one _).mp hN), window_one b p v0 h0]
    have : v0.val % 128 = v0.val := Nat.mod_eq_of_lt ((leadTier_one _).mp hN)
    simp [seqValue, prevTierMax, this]
  · obtain ⟨v1, e1, c1⟩ := hcont 1 (by omega) (by omega)
    rw [step_MED table b p v0 h0 ((leadTier_two _).mp hN) (by omega),
      isCode_MED_eval table b p v0 v1 h0 e1 ((leadTier_two _).mp hN), if_pos c1,
      window_two b p v0 v1 h0 e1]
    simp [seqValue, prevTierMax]
  · obtain ⟨v1, e1, c1⟩ := hcont 1 (by omega) (by omega)
    obtain ⟨v2, e2, c2⟩ := hcont 2 (by omega) (by omega)
    rw [step_LG table b p v0 h0 ((leadTier_three _).mp hN) (by omega),
      isCode_LG_eval table b p v0 v1 v2 h0 e1 e2 ((leadTier_three _).mp hN), if_pos c1,
      if_pos c2, window_three b p v0 v1 v2 h0 e1 e2]
    simp [seqValue, prevTierMax]
  · obtain ⟨v1, e1, c1⟩ := hcont 1 (by omega) (by omega)
    obtain ⟨v2, e2, c2⟩ := hcont 2 (by omega) (by omega)
    obtain ⟨v3, e3, c3⟩ := hcont 3 (by omega) (by omega)
    rw [step_XL table b p v0 h0 ((leadTier_four _).mp hN) (by omega),
      isCode_XL_eval table b p v0 v1 v2 v3 h0 e1 e2 e3 ((leadTier_four _).mp hN), if_pos c1,
      if_pos c2, if_pos c3, window_four b p v0 v1 v2 v3 h0 e1 e2 e3]
    simp [seqValue, prevTierMax]

theorem seqValue_window_lt (b : List Byte) (p N : Nat) :
    seqValue (window b p N) < 2097152 := by
  unfold window
  generalize ((b.drop p).take N).map Fin.val = l
  match l with
  | [] => simp [seqValue]
  | [x0] => simp only [seqValue]; omega
  | [x0, x1] => simp only [seqValue]; omega
  | [x0, x1, x2] => simp only [seqValue]; omega
  | x0 :: x1 :: x2 :: x3 :: _ => simp only [seqValue]; omega

theorem resolve_le (table : List CodePoint) (newCode loc : Nat) (max : Nat)
    (hlt : newCode < 2147483648) (h : newCode ≤ max) :
    resolve table newCode loc (max : Int) = .ok (true, [Event.invalidEncoding newCode loc]) := by
  unfold resolve
  rw [sint32_of_lt newCode hlt, if_pos (by exact_mod_cast h)]

theorem resolve_gt (table : List CodePoint) (newCode loc : Nat) (max : Nat)
    (hlt : newCode < 2147483648) (h : max < newCode) :
    resolve table newCode loc (max : Int)
      = match reportCode table (newCode : Int) with
        | .error f => .error f
        | .ok (found, out) =>
          if !found then .ok (true, out ++ [Event.unknownCode newCode loc])
          else .ok (true, out) := by
  unfold resolve
  rw [sint32_of_lt newCode hlt, if_neg (by exact_mod_cast not_le.mpr h)]

/-- Every call of `reportCode` on the empty table ends in the fault of
reading `table[ 0 ]`: a run on the empty table that ends without a fault has
made no lookup. -/
theorem reportCode_nil (code : Int) : reportCode [] code = .error (.tableRead 0) := by
  simp [reportCode, bisect, tableAt]

/-! ## Properties of the scanner -/

/-- C4. Overlong detection: an iteration that starts on a structurally valid
sequence of tier `N` in 2, 3, 4 whose value is at most the maximum of the
tier below prints one `Invalid encoding` line with that value and the
position of the lead byte, and moves on by `N`; the result is the same for
every table (the empty one, on which any lookup faults, included), so no
lookup is made and no name printed. In particular a lead byte 0xC0 or 0xC1
followed by a continuation byte is flagged. -/
theorem overlong_flagged (table : List CodePoint) (b : List Byte) (p : Nat) :
    (∀ N, 2 ≤ N → WellFormedAt b p N → seqValue (window b p N) ≤ prevTierMax N →
      step table b p
        = .ok (p + N, [Event.invalidEncoding (seqValue (window b p N)) p])) ∧
    (∀ v0 v1 : Byte, b[p]? = some v0 → b[p + 1]? = some v1 →
      v0.val = 0xC0 ∨ v0.val = 0xC1 → isCont v1.val →
      step table b p
        = .ok (p + 2, [Event.invalidEncoding (v0.val % 32 * 64 + v1.val % 64) p])) := by
  have main : ∀ N, 2 ≤ N → WellFormedAt b p N → seqValue (window b p N) ≤ prevTierMax N →
      step table b p
        = .ok (p + N, [Event.invalidEncoding (seqValue (window b p N)) p]) := by
    intro N h2 hw hval
    rw [step_wellFormed table b p N (by omega) hw,
      resolve_le table _ p _ (by have := seqValue_window_lt b p N; omega) hval]
    rfl
  refine ⟨main, ?_⟩
  intro v0 v1 h0 h1 hlead hc
  have hv1 := v1.isLt
  have hw : WellFormedAt b p 2 := by
    refine ⟨by have := lt_length_of_getElem? h1; omega,
      ⟨v0, h0, (leadTier_two _).mpr (by omega)⟩, ?_⟩
    intro j hj1 hj2
    have : j = 1 := by omega
    subst this
    exact ⟨v1, h1, hc⟩
  have hwin := window_two b p v0 v1 h0 h1
  have := main 2 (le_refl _) hw (by
    have hmax : prevTierMax 2 = 127 := rfl
    rw [hwin, hmax]; simp only [seqValue]; unfold isCont at hc; omega)
  rw [hwin] at this
  simpa [seqValue] using this

/-- Witness of C4: the bytes 0xC0 0x80 on the empty table. -/
theorem overlong_flagged_witness :
    step [] [0xC0, 0x80] 0 = .ok (2, [Event.invalidEncoding 0 0]) ∧
      processInput [] [0xC0, 0x80] = .ok [Event.invalidEncoding 0 0] :=
  ⟨(overlong_flagged [] [0xC0, 0x80] 0).2 0xC0 0x80 rfl rfl (Or.inl rfl) (by decide),
    by decide⟩

/-- C10. Invalid continuation byte: when the lead byte at `p` is of tier `N`
in 2, 3, 4 with `N` bytes in the buffer and `p + i` is the first position
after the lead whose byte is not a continuation byte, the iteration prints
one `Invalid byte` line with that byte and the position `p + i`, is the same
for every table (no lookup), and moves on by the full `N`. -/
theorem invalid_continuation (table : List CodePoint) (b : List Byte) (p N i : Nat)
    (v0 bad : Byte) (h0 : b[p]? = some v0) (hN : leadTier v0.val = N) (h2 : 2 ≤ N)
    (hlen : p + N ≤ b.length) (hi1 : 1 ≤ i) (hiN : i < N)
    (hgood : ∀ j, 1 ≤ j → j < i → ∃ w, b[p + j]? = some w ∧ isCont w.val)
    (hbad : b[p + i]? = some bad) (hnc : ¬ isCont bad.val) :
    step table b p = .ok (p + N, [Event.invalidByte bad.val (p + i)]) := by
  have hN4 : N ≤ 4 := hN ▸ leadTier_le _
  have hcases : N = 2 ∨ N = 3 ∨ N = 4 := by omega
  rcases hcases with h | h | h <;> subst h
  · have hi : i = 1 := by omega
    subst hi
    rw [step_MED table b p v0 h0 ((leadTier_two _).mp hN) (by omega),
      isCode_MED_eval table b p v0 bad h0 hbad ((leadTier_two _).mp hN), if_neg hnc]
    rfl
  · obtain ⟨v1, e1⟩ := getElem?_of_lt b (p + 1) (by omega)
    obtain ⟨v2, e2⟩ := getElem?_of_lt b (p + 2) (by omega)
    rw [step_LG table b p v0 h0 ((leadTier_three _).mp hN) (by omega),
      isCode_LG_eval table b p v0 v1 v2 h0 e1 e2 ((leadTier_three _).mp hN)]
    have hi : i = 1 ∨ i = 2 := by omega
    rcases hi with hi | hi <;> subst hi
    · have : v1 = bad := Option.some.inj (e1.symm.trans hbad)
      subst this
      rw [if_neg hnc]; rfl
    · obtain ⟨w, ew, cw⟩ := hgood 1 (by omega) (by omega)
      have : v1 = w := Option.some.inj (e1.symm.trans ew)
      subst this
      have : v2 = bad := Option.some.inj (e2.symm.trans hbad)
      subst this
      rw [if_pos cw, if_neg hnc]; rfl
  · obtain ⟨v1, e1⟩ := getElem?_of_lt b (p + 1) (by omega)
    obtain ⟨v2, e2⟩ := getElem?_of_lt b (p + 2) (by omega)
    obtain ⟨v3, e3⟩ := getElem?_of_lt b (p + 3) (by omega)
    rw [step_XL table b p v0 h0 ((leadTier_four _).mp hN) (by omega),
      isCode_XL_eval table b p v0 v1 v2 v3 h0 e1 e2 e3 ((leadTier_four _).mp hN)]
    have hi : i = 1 ∨ i = 2 ∨ i = 3 := by omega
    rcases hi with hi | hi | hi <;> subst hi
    · have : v1 = bad := Option.some.inj (e1.symm.trans hbad)
      subst this
      rw [if_neg hnc]; rfl
    · obtain ⟨w, ew, cw⟩ := hgood 1 (by omega) (by omega)
      have : v1 = w := Option.some.inj (e1.symm.trans ew)
      subst this
      have : v2 = bad := Option.some.inj (e2.symm.trans hbad)
      subst this
      rw [if_pos cw, if_neg hnc]; rfl
    · obtain ⟨w, ew, cw⟩ := hgood 1 (by omega) (by omega)
      have : v1 = w := Option.some.inj (e1.symm.trans ew)
      subst this
      obtain ⟨w2, ew2, cw2⟩ := hgood 2 (by omega) (by omega)
      have : v2 = w2 := Option.some.inj (e2.symm.trans ew2)
      subst this
      have : v3 = bad := Option.some.inj (e3.symm.trans hbad)
      subst this
      rw [if_pos cw, if_pos cw2, if_neg hnc]; rfl

/-- Witness of C10: a 3-byte lead, a byte that is not a continuation byte at
position 1, then two more bytes; the iteration moves on by 3. -/
theorem invalid_continuation_witness :
    step [] [0xE2, 0x41, 0xAC, 0x41] 0 = .ok (0 + 3, [Event.invalidByte 0x41 (0 + 1)]) :=
  invalid_continuation [] [0xE2, 0x41, 0xAC, 0x41] 0 3 1 0xE2 0x41 rfl (by decide)
    (by decide) (by decide) (by decide) (by decide)
    (fun j h1 h2 => absurd h1 (by omega)) rfl (by decide)

theorem scanLoop_at_end (table : List CodePoint) (b : List Byte) (fuel : Nat) :
    scanLoop table b fuel b.length = .ok [] := by
  unfold scanLoop
  rw [if_neg (lt_irrefl _)]

theorem scanLoop_last_step (table : List CodePoint) (b : List Byte) (fuel p : Nat)
    (hp : p < b.length) (out : List Event) (hstep : step table b p = .ok (b.length, out)) :
    scanLoop table b (fuel + 1) p = .ok out := by
  rw [scanLoop, if_pos hp]
  simp only [hstep, scanLoop_at_end, List.append_nil]

theorem scanLoop_fault (table : List CodePoint) (b : List Byte) (fuel p : Nat)
    (hp : p < b.length) (f : Fault) (hstep : step table b p = .error f) :
    scanLoop table b (fuel + 1) p = .error f := by
  rw [scanLoop, if_pos hp]
  simp only [hstep]

/-- C5 as stated fails: the byte 0xFF matches no lead pattern, yet alone in
the buffer it is reported as `Incomplete code at 0`, not as an invalid byte,
and followed by two bytes it is reported as incomplete and all three bytes
are consumed. -/
theorem invalid_lead_short_is_incomplete :
    leadTier 0xFF = 0 ∧
    processInput [] [0xFF] = .ok [Event.incomplete 0] ∧
    processInput [] [0xFF] ≠ .ok [Event.invalidByte 0xFF 0] ∧
    step [] [0xFF, 0x41, 0x42] 0 = .ok (3, [Event.incomplete 0]) := by
  decide

/-- C5, amended. Invalid lead byte: when the byte at `p` matches none of the
four lead patterns and at least 4 bytes remain from `p`, the iteration prints
one `Invalid byte` line with that byte and position `p` and moves on by
exactly 1; when fewer than 4 bytes remain it prints `Incomplete code` at `p`
instead and moves to the end of the buffer. -/
theorem invalid_lead (table : List CodePoint) (b : List Byte) (p : Nat) (v0 : Byte)
    (h0 : b[p]? = some v0) (hl : leadTier v0.val = 0) :
    (p + 3 < b.length → step table b p = .ok (p + 1, [Event.invalidByte v0.val p])) ∧
    (b.length ≤ p + 3 → step table b p = .ok (b.length, [Event.incomplete p])) := by
  have hr := (leadTier_zero _).mp hl
  have hp := lt_length_of_getElem? h0
  constructor
  · intro hn
    exact step_invalid table b p v0 h0 (by omega) hn
  · intro hn
    have hcases : b.length = p + 1 ∨ b.length = p + 2 ∨ b.length = p + 3 := by omega
    rcases hcases with h | h | h
    · rw [h]; exact step_short1 table b p v0 h0 (by omega) (by omega)
    · rw [h]; exact step_short2 table b p v0 h0 (by omega) h
    · rw [h]; exact step_short3 table b p v0 h0 (by omega) h

/-- Witness of C5 amended: 0xFF followed by three bytes, and 0xFF alone. -/
theorem invalid_lead_witness :
    step [] [0xFF, 0x41, 0x42, 0x43] 0 = .ok (0 + 1, [Event.invalidByte 0xFF 0]) ∧
    step [] [0xFF] 0 = .ok (1, [Event.incomplete 0]) :=
  ⟨(invalid_lead [] [0xFF, 0x41, 0x42, 0x43] 0 0xFF rfl (by decide)).1 (by decide),
    (invalid_lead [] [0xFF] 0 0xFF rfl (by decide)).2 (by decide)⟩

/-- C6. Truncation: when the byte at `p` is a lead byte of tier `N` in 2, 3,
4 and fewer than `N` bytes remain from `p`, the iteration prints exactly one
`Incomplete code` line, carrying `p`, and moves to the end of the buffer, so
the loop arriving at `p` prints that line and nothing else. -/
theorem truncated_tail (table : List CodePoint) (b : List Byte) (p N : Nat) (v0 : Byte)
    (h0 : b[p]? = some v0) (hN : leadTier v0.val = N) (h2 : 2 ≤ N)
    (hshort : b.length < p + N) :
    step table b p = .ok (b.length, [Event.incomplete p]) ∧
      ∀ fuel, scanLoop table b (fuel + 1) p = .ok [Event.incomplete p] := by
  have hp := lt_length_of_getElem? h0
  have hN4 : N ≤ 4 := hN ▸ leadTier_le _
  have hstep : step table b p = .ok (b.length, [Event.incomplete p]) := by
    have hcases : N = 2 ∨ N = 3 ∨ N = 4 := by omega
    rcases hcases with h | h | h <;> subst h
    · have hr := (leadTier_two _).mp hN
      have hlen : b.length = p + 1 := by omega
      rw [hlen]; exact step_short1 table b p v0 h0 (by omega) (by omega)
    · have hr := (leadTier_three _).mp hN
      have hcases : b.length = p + 1 ∨ b.length = p + 2 := by omega
      rcases hcases with h | h
      · rw [h]; exact step_short1 table b p v0 h0 (by omega) (by omega)
      · rw [h]; exact step_short2 table b p v0 h0 (by omega) h
    · have hr := (leadTier_four _).mp hN
      have hcases : b.length = p + 1 ∨ b.length = p + 2 ∨ b.length = p + 3 := by omega
      rcases hcases with h | h | h
      · rw [h]; exact step_short1 table b p v0 h0 (by omega) (by omega)
      · rw [h]; exact step_short2 table b p v0 h0 (by omega) h
      · rw [h]; exact step_short3 table b p v0 h0 (by omega) h
  exact ⟨hstep, fun fuel => scanLoop_last_step table b fuel p hp _ hstep⟩

/-- Witness of C6: the buffers 0xE2 and 0xE2 0x82, scanned from the start. -/
theorem truncated_tail_witness :
    processInput [] [0xE2] = .ok [Event.incomplete 0] ∧
    processInput [] [0xE2, 0x82] = .ok [Event.incomplete 0] :=
  ⟨(truncated_tail [] [0xE2] 0 3 0xE2 rfl (by decide) (by decide) (by decide)).2 0,
    (truncated_tail [] [0xE2, 0x82] 0 3 0xE2 rfl (by decide) (by decide) (by decide)).2 1⟩

/-! ## Reads of the buffer -/

theorem tableAt_fault (table : List CodePoint) (i : Int) (f : Fault)
    (h : tableAt table i = .error f) : f = .tableRead i := by
  unfold tableAt at h
  split at h
  · split at h
    · cases h
    · cases h; rfl
  · cases h; rfl

theorem bisect_fault (table : List CodePoint) (code : Int) :
    ∀ (fuel : Nat) (start end_ : Int) (f : Fault),
      bisect table code fuel start end_ = .error f → ∀ i, f ≠ .bufferRead i := by
  intro fuel
  induction fuel with
  | zero =>
    intro start end_ f h i
    unfold bisect at h
    cases h
    exact fun h => Fault.noConfusion h
  | succ fuel ih =>
    intro start end_ f h i
    unfold bisect at h
    split at h
    · dsimp only at h
      split at h
      · rename_i f2 hf2
        cases h
        rw [tableAt_fault _ _ _ hf2]
        exact fun h => Fault.noConfusion h
      · split at h
        · exact ih _ _ f h i
        · exact ih _ _ f h i
    · cases h

theorem reportCode_fault (table : List CodePoint) (code : Int) (f : Fault)
    (h : reportCode table code = .error f) : ∀ i, f ≠ .bufferRead i := by
  intro i
  unfold reportCode at h
  dsimp only at h
  split at h
  · rename_i f2 hf2
    cases h
    exact bisect_fault table code _ _ _ _ hf2 i
  · split at h
    · rename_i f2 hf2
      cases h
      rw [tableAt_fault _ _ _ hf2]
      exact fun h => Fault.noConfusion h
    · split at h <;> cases h

theorem resolve_fault (table : List CodePoint) (newCode loc : Nat) (max : Int) (f : Fault)
    (h : resolve table newCode loc max = .error f) : ∀ i, f ≠ .bufferRead i := by
  intro i
  unfold resolve at h
  split at h
  · cases h
  · split at h
    · rename_i f2 hf2
      cases h
      exact reportCode_fault table _ _ hf2 i
    · split at h <;> cases h

theorem contLoop_fault (b : List Byte) :
    ∀ (left location code low : Nat), location + left < b.length →
      ∀ i, contLoop b left location code low ≠ .error (.bufferRead i) := by
  intro left
  induction left with
  | zero =>
    intro location code low _ i h
    unfold contLoop at h
    cases h
  | succ left ih =>
    intro location code low hlen i h
    obtain ⟨v, hv⟩ := getElem?_of_lt b (location + 1) (by omega)
    rw [contLoop] at h
    simp only [readChar_some b (location + 1) v hv, clear_char] at h
    split at h
    · cases h
    · exact ih (location + 1) _ _ (by omega) i h

/-- A call of `isCode` with `location + size - 1` inside the buffer reads
the buffer only inside it. -/
theorem isCode_fault (table : List CodePoint) (b : List Byte)
    (location tMask exp size lMask : Nat) (max : Int) (hsize : 1 ≤ size)
    (hlen : location + size - 1 < b.length) :
    ∀ i, isCode table b location tMask exp size lMask max ≠ .error (.bufferRead i) := by
  intro i h
  obtain ⟨v, hv⟩ := getElem?_of_lt b location (by omega)
  rw [isCode_unfold table b location tMask exp size lMask max v hv] at h
  split at h
  · split at h
    · rename_i f hf
      cases h
      exact contLoop_fault b (size - 1) location _ _ (by omega) i hf
    · split at h
      · exact resolve_fault _ _ _ _ _ h i rfl
      · cases h
  · cases h

theorem advance_fault (location size : Nat) (r : Except Fault (Bool × List Event)) (i : Nat)
    (h : r ≠ .error (.bufferRead i)) : advance location size r ≠ .error (.bufferRead i) := by
  intro h2
  unfold advance at h2
  split at h2
  · cases h2; exact h rfl
  · cases h2

theorem step_fault (table : List CodePoint) (b : List Byte) (p : Nat) (hp : p < b.length) :
    ∀ i, step table b p ≠ .error (.bufferRead i) := by
  intro i
  obtain ⟨v0, h0⟩ := getElem?_of_lt b p hp
  have hv0 := v0.isLt
  by_cases t1 : v0.val < 0x80
  · rw [step_SM table b p v0 h0 t1]
    exact advance_fault _ _ _ i (isCode_fault table b p _ _ SM_BYTES _ _ (by decide)
      (by simp only [SM_BYTES]; omega) i)
  by_cases n1 : b.length ≤ p + 1
  · rw [step_short1 table b p v0 h0 t1 n1]
    exact fun h => Except.noConfusion h
  by_cases t2 : 0xC0 ≤ v0.val ∧ v0.val < 0xE0
  · rw [step_MED table b p v0 h0 t2 (by omega)]
    exact advance_fault _ _ _ i (isCode_fault table b p _ _ MED_BYTES _ _ (by decide)
      (by simp only [MED_BYTES]; omega) i)
  by_cases n2 : b.length = p + 2
  · rw [step_short2 table b p v0 h0 ⟨by omega, t2⟩ n2]
    exact fun h => Except.noConfusion h
  by_cases t3 : 0xE0 ≤ v0.val ∧ v0.val < 0xF0
  · rw [step_LG table b p v0 h0 t3 (by omega)]
    exact advance_fault _ _ _ i (isCode_fault table b p _ _ LG_BYTES _ _ (by decide)
      (by simp only [LG_BYTES]; omega) i)
  by_cases n3 : b.length = p + 3
  · rw [step_short3 table b p v0 h0 ⟨by omega, by omega⟩ n3]
    exact fun h => Except.noConfusion h
  by_cases t4 : 0xF0 ≤ v0.val ∧ v0.val < 0xF8
  · rw [step_XL table b p v0 h0 t4 (by omega)]
    exact advance_fault _ _ _ i (isCode_fault table b p _ _ XL_BYTES _ _ (by decide)
      (by simp only [XL_BYTES]; omega) i)
  · rw [step_invalid table b p v0 h0 ⟨by omega, by omega⟩ (by omega)]
    exact fun h => Except.noConfusion h

theorem scanLoop_fault_free (table : List CodePoint) (b : List Byte) :
    ∀ (fuel location i : Nat), scanLoop table b fuel location ≠ .error (.bufferRead i) := by
  intro fuel
  induction fuel with
  | zero =>
    intro location i h
    unfold scanLoop at h
    split at h <;> cases h
  | succ fuel ih =>
    intro location i h
    rw [scanLoop] at h
    split at h
    · rename_i hp
      split at h
      · rename_i f hf
        cases h
        exact step_fault table b location hp i hf
      · split at h
        · rename_i f hf
          cases h
          exact ih _ i hf
        · cases h
    · cases h

/-- The out-of-range branch of the buffer read is real: called on a 3-byte
lead with one byte after it, `isCode` for the 3-byte tier reads index 2. -/
theorem isCode_past_end_faults :
    isCode [] [0xE2, 0x82] 0 LG_TEST_MASK EXP_LG LG_BYTES LG_LOW_MASK MAX_MED
      = .error (.bufferRead 2) := by
  decide

/-- C7. Buffer bounds: a call of `isCode` with `location + size - 1` below
the buffer length never reads outside the buffer; an iteration of the
scanning loop, which starts with `location` below the buffer length, only
makes such calls and never reads outside the buffer; so no run of the loop,
and no run of `processInput`, ends in an out-of-range buffer read. -/
theorem buffer_reads_in_bounds (table : List CodePoint) (b : List Byte) :
    (∀ location tMask exp size lMask max i, 1 ≤ size → location + size - 1 < b.length →
      isCode table b location tMask exp size lMask max ≠ .error (.bufferRead i)) ∧
    (∀ p i, p < b.length → step table b p ≠ .error (.bufferRead i)) ∧
    (∀ fuel location i, scanLoop table b fuel location ≠ .error (.bufferRead i)) ∧
    (∀ i, processInput table b ≠ .error (.bufferRead i)) :=
  ⟨fun location tMask exp size lMask max i hs hl =>
      isCode_fault table b location tMask exp size lMask max hs hl i,
    fun p i hp => step_fault table b p hp i,
    scanLoop_fault_free table b,
    fun i => scanLoop_fault_free table b b.length 0 i⟩

/-- Witness of C7: the truncated buffer 0xE2 0x82. -/
theorem buffer_reads_in_bounds_witness :
    step [] [0xE2, 0x82] 0 ≠ .error (.bufferRead 2) :=
  (buffer_reads_in_bounds [] [0xE2, 0x82]).2.1 0 2 (by decide)

/-! ## Round trip -/

theorem val_ofNat (x : Nat) (h : x < 256) : (Fin.ofNat x : Byte).val = x := by
  show x % 256 = x
  exact Nat.mod_eq_of_lt h

/-- The minimal-tier encoding of a code point from 1 to 0x10FFFF is a
structurally valid sequence that fills the buffer, carries the code point,
and lies above the maximum of the tier below. -/
theorem utf8Encode_wellFormed (c : Nat) (h1 : 1 ≤ c) (h2 : c ≤ 0x10FFFF) :
    ∃ N, 1 ≤ N ∧ (utf8Encode c).length = N ∧ WellFormedAt (utf8Encode c) 0 N ∧
      seqValue (window (utf8Encode c) 0 N) = c ∧ prevTierMax N < c := by
  by_cases t1 : c ≤ 0x7F
  · have he : utf8Encode c = [Fin.ofNat c] := by simp [utf8Encode, t1]
    have hv := val_ofNat c (by omega)
    refine ⟨1, le_refl _, by rw [he]; rfl, ⟨by rw [he]; exact le_refl _,
      ⟨Fin.ofNat c, by rw [he]; rfl, (leadTier_one _).mpr (by omega)⟩,
      fun j hj1 hj2 => absurd hj1 (by omega)⟩, ?_, ?_⟩
    · rw [he, window_one _ 0 (Fin.ofNat c) rfl, hv]
      simp only [seqValue]; omega
    · have : prevTierMax 1 = 0 := rfl
      omega
  by_cases t2 : c ≤ 0x7FF
  · have he : utf8Encode c = [Fin.ofNat (0xC0 + c / 64), Fin.ofNat (0x80 + c % 64)] := by
      simp [utf8Encode, t1, t2]
    have hv0 := val_ofNat (0xC0 + c / 64) (by omega)
    have hv1 := val_ofNat (0x80 + c % 64) (by omega)
    refine ⟨2, by omega, by rw [he]; rfl, ⟨by rw [he]; exact le_refl _,
      ⟨Fin.ofNat (0xC0 + c / 64), by rw [he]; rfl, (leadTier_two _).mpr (by omega)⟩, ?_⟩,
      ?_, ?_⟩
    · intro j hj1 hj2
      have : j = 1 := by omega
      subst this
      exact ⟨Fin.ofNat (0x80 + c % 64), by rw [he]; rfl, by unfold isCont; omega⟩
    · rw [he, window_two _ 0 (Fin.ofNat (0xC0 + c / 64)) (Fin.ofNat (0x80 + c % 64)) rfl rfl,
        hv0, hv1]
      simp only [seqValue]; omega
    · have : prevTierMax 2 = 127 := rfl
      omega
  by_cases t3 : c ≤ 0xFFFF
  · have he : utf8Encode c = [Fin.ofNat (0xE0 + c / 4096), Fin.ofNat (0x80 + c / 64 % 64),
        Fin.ofNat (0x80 + c % 64)] := by
      simp [utf8Encode, t1, t2, t3]
    have hv0 := val_ofNat (0xE0 + c / 4096) (by omega)
    have hv1 := val_ofNat (0x80 + c / 64 % 64) (by omega)
    have hv2 := val_ofNat (0x80 + c % 64) (by omega)
    refine ⟨3, by omega, by rw [he]; rfl, ⟨by rw [he]; exact le_refl _,
      ⟨Fin.ofNat (0xE0 + c / 4096), by rw [he]; rfl, (leadTier_three _).mpr (by omega)⟩, ?_⟩,
      ?_, ?_⟩
    · intro j hj1 hj2
      have : j = 1 ∨ j = 2 := by omega
      rcases this with h | h <;> subst h
      · exact ⟨Fin.ofNat (0x80 + c / 64 % 64), by rw [he]; rfl, by unfold isCont; omega⟩
      · exact ⟨Fin.ofNat (0x80 + c % 64), by rw [he]; rfl, by unfold isCont; omega⟩
    · rw [he, window_three _ 0 (Fin.ofNat (0xE0 + c / 4096)) (Fin.ofNat (0x80 + c / 64 % 64))
        (Fin.ofNat (0x80 + c % 64)) rfl rfl rfl, hv0, hv1, hv2]
      simp only [seqValue]; omega
    · have : prevTierMax 3 = 2047 := rfl
      omega
  · have he : utf8Encode c = [Fin.ofNat (0xF0 + c / 262144), Fin.ofNat (0x80 + c / 4096 % 64),
        Fin.ofNat (0x80 + c / 64 % 64), Fin.ofNat (0x80 + c % 64)] := by
      simp [utf8Encode, t1, t2, t3]
    have hv0 := val_ofNat (0xF0 + c / 262144) (by omega)
    have hv1 := val_ofNat (0x80 + c / 4096 % 64) (by omega)
    have hv2 := val_ofNat (0x80 + c / 64 % 64) (by omega)
    have hv3 := val_ofNat (0x80 + c % 64) (by omega)
    refine ⟨4, by omega, by rw [he]; rfl, ⟨by rw [he]; exact le_refl _,
      ⟨Fin.ofNat (0xF0 + c / 262144), by rw [he]; rfl, (leadTier_four _).mpr (by omega)⟩, ?_⟩,
      ?_, ?_⟩
    · intro j hj1 hj2
      have : j = 1 ∨ j = 2 ∨ j = 3 := by omega
      rcases this with h | h | h <;> subst h
      · exact ⟨Fin.ofNat (0x80 + c / 4096 % 64), by rw [he]; rfl, by unfold isCont; omega⟩
      · exact ⟨Fin.ofNat (0x80 + c / 64 % 64), by rw [he]; rfl, by unfold isCont; omega⟩
      · exact ⟨Fin.ofNat (0x80 + c % 64), by rw [he]; rfl, by unfold isCont; omega⟩
    · rw [he, window_four _ 0 (Fin.ofNat (0xF0 + c / 262144))
        (Fin.ofNat (0x80 + c / 4096 % 64)) (Fin.ofNat (0x80 + c / 64 % 64))
        (Fin.ofNat (0x80 + c % 64)) rfl rfl rfl rfl, hv0, hv1, hv2, hv3]
      simp only [seqValue]; omega
    · have : prevTierMax 4 = 65535 := rfl
      omega

/-- The iteration on the minimal-tier encoding of `c`, alone in the buffer. -/
theorem step_utf8Encode (table : List CodePoint) (c : Nat) (h1 : 1 ≤ c) (h2 : c ≤ 0x10FFFF) :
    step table (utf8Encode c) 0
      = match reportCode table (c : Int) with
        | .error f => .error f
        | .ok (found, out) =>
          .ok ((utf8Encode c).length,
            if found then out else out ++ [Event.unknownCode c 0]) := by
  obtain ⟨N, hN1, hlen, hw, hval, hmax⟩ := utf8Encode_wellFormed c h1 h2
  rw [step_wellFormed table _ 0 N hN1 hw, hval,
    resolve_gt table c 0 _ (by omega) hmax, hlen]
  cases reportCode table (c : Int) with
  | error f => rfl
  | ok r =>
    obtain ⟨found, out⟩ := r
    cases found <;> simp [advance]

theorem processInput_utf8Encode (table : List CodePoint) (c : Nat) (h1 : 1 ≤ c)
    (h2 : c ≤ 0x10FFFF) :
    processInput table (utf8Encode c)
      = match reportCode table (c : Int) with
        | .error f => .error f
        | .ok (found, out) =>
          .ok (if found then out else out ++ [Event.unknownCode c 0]) := by
  have hstep := step_utf8Encode table c h1 h2
  obtain ⟨N, hN1, hlen, _, _, _⟩ := utf8Encode_wellFormed c h1 h2
  obtain ⟨k, hk⟩ : ∃ k, (utf8Encode c).length = k + 1 := ⟨N - 1, by omega⟩
  unfold processInput
  rw [hk]
  cases hr : reportCode table (c : Int) with
  | error f =>
    rw [hr] at hstep
    exact scanLoop_fault table _ k 0 (by omega) f hstep
  | ok r =>
    obtain ⟨found, out⟩ := r
    rw [hr] at hstep
    exact scanLoop_last_step table _ k 0 (by omega) _ hstep

/-- C1, where the code departs from it: the code point 0 in its 1-byte
encoding is reported as `Invalid encoding` although the table holds it,
because `processInput` passes 0 as `max` for the 1-byte tier and `isCode`
tests `newCode <= max`, while the smallest code points of the 2-, 3- and
4-byte tiers (0x80, 0x800, 0x10000) are looked up and their names printed;
and on a table whose codes are all below the code point scanned the lookup
reads outside the table instead of the scan printing `Unknown code`. -/
theorem roundTrip_fails :
    utf8Encode 0 = [0x00] ∧
    processInput [⟨0, "NULL"⟩] (utf8Encode 0) = .ok [Event.invalidEncoding 0 0] ∧
    processInput [⟨0x80, "PADDING CHARACTER"⟩] (utf8Encode 0x80)
      = .ok [Event.name "PADDING CHARACTER"] ∧
    processInput [⟨0x800, "SAMARITAN LETTER ALAF"⟩] (utf8Encode 0x800)
      = .ok [Event.name "SAMARITAN LETTER ALAF"] ∧
    processInput [⟨0x10000, "LINEAR B SYLLABLE B008 A"⟩] (utf8Encode 0x10000)
      = .ok [Event.name "LINEAR B SYLLABLE B008 A"] ∧
    processInput [⟨0x41, "LATIN CAPITAL LETTER A"⟩] (utf8Encode 0x42)
      = .error (.tableRead 1) := by
  decide

/-- The round trip where the code keeps it: for every code point `c` from 1
to 0x10FFFF in its minimal-tier encoding, alone in the buffer, the scan makes exactly one
iteration, which consumes the whole buffer, reconstructs `c`, never reports
`Invalid encoding`, and hands `c` to `reportCode`: the scan prints what
`reportCode( c )` prints, followed by `Unknown code` with `c` at position 0
when `reportCode` returns false. On a sorted table (of at most `2^30`
entries): the stored name is printed when `c` is in the table, and `Unknown
code` when `c` is absent and not above every loaded code. -/
theorem roundTrip (table : List CodePoint) (c : Nat) (h1 : 1 ≤ c) (h2 : c ≤ 0x10FFFF) :
    (step table (utf8Encode c) 0
      = match reportCode table (c : Int) with
        | .error f => .error f
        | .ok (found, out) =>
          .ok ((utf8Encode c).length,
            if found then out else out ++ [Event.unknownCode c 0])) ∧
    (processInput table (utf8Encode c)
      = match reportCode table (c : Int) with
        | .error f => .error f
        | .ok (found, out) =>
          .ok (if found then out else out ++ [Event.unknownCode c 0])) ∧
    (StrictlySortedByCode table → table.length ≤ 1073741824 →
      ∀ cp ∈ table, cp.code = (c : Int) →
        processInput table (utf8Encode c) = .ok [Event.name cp.name]) ∧
    (SortedByCode table → table.length ≤ 1073741824 →
      (∀ cp ∈ table, cp.code ≠ (c : Int)) → (∃ cp ∈ table, (c : Int) ≤ cp.code) →
        processInput table (utf8Encode c) = .ok [Event.unknownCode c 0]) := by
  refine ⟨step_utf8Encode table c h1 h2, processInput_utf8Encode table c h1 h2, ?_, ?_⟩
  · intro hs hlen cp hmem hcode
    rw [processInput_utf8Encode table c h1 h2, ← hcode,
      reportCode_unique table cp hs hlen hmem]
    rfl
  · intro hs hlen habs hin
    rw [processInput_utf8Encode table c h1 h2,
      reportCode_absent_inside table c hs hlen habs hin]
    rfl

/-- An instance of the round trip: the euro sign, U+20AC, in three bytes. -/
theorem roundTrip_witness :
    utf8Encode 0x20AC = [0xE2, 0x82, 0xAC] ∧
    processInput [⟨0x41, "LATIN CAPITAL LETTER A"⟩, ⟨0x20AC, "EURO SIGN"⟩] (utf8Encode 0x20AC)
      = .ok [Event.name "EURO SIGN"] :=
  ⟨by decide,
    (roundTrip [⟨0x41, "LATIN CAPITAL LETTER A"⟩, ⟨0x20AC, "EURO SIGN"⟩] 0x20AC
      (by decide) (by decide)).2.2.1 (by unfold StrictlySortedByCode; decide) (by decide)
      ⟨0x20AC, "EURO SIGN"⟩ (by decide) rfl⟩

/-! ## One iteration of the scanning loop: the complete case analysis -/

theorem tierCall_one (table : List CodePoint) (b : List Byte) (p : Nat) :
    tierCall table b p 1 = isCode table b p SM_TEST_MASK EXP_SM SM_BYTES SM_LOW_MASK 0 := rfl

theorem tierCall_two (table : List CodePoint) (b : List Byte) (p : Nat) :
    tierCall table b p 2
      = isCode table b p MED_TEST_MASK EXP_MED MED_BYTES MED_LOW_MASK MAX_SM := rfl

theorem tierCall_three (table : List CodePoint) (b : List Byte) (p : Nat) :
    tierCall table b p 3
      = isCode table b p LG_TEST_MASK EXP_LG LG_BYTES LG_LOW_MASK MAX_MED := rfl

theorem tierCall_four (table : List CodePoint) (b : List Byte) (p : Nat) :
    tierCall table b p 4
      = isCode table b p XL_TEST_MASK EXP_XL XL_BYTES XL_LOW_MASK MAX_LG := rfl

/-- The three ways an iteration can go: the lead byte is of a tier that fits
in the buffer and the call of `isCode` for that tier decides; or fewer than 4
bytes remain and no tier that fits matches, `Incomplete code`; or 4 bytes
remain and the lead byte is of no tier, `Invalid byte`. -/
theorem step_cases (table : List CodePoint) (b : List Byte) (p : Nat) (v0 : Byte)
    (h0 : b[p]? = some v0) :
    (1 ≤ leadTier v0.val ∧ p + leadTier v0.val ≤ b.length ∧
      step table b p
        = advance p (leadTier v0.val) (tierCall table b p (leadTier v0.val))) ∨
    (b.length ≤ p + 3 ∧ (leadTier v0.val = 0 ∨ b.length < p + leadTier v0.val) ∧
      step table b p = .ok (b.length, [Event.incomplete p])) ∨
    (leadTier v0.val = 0 ∧ p + 3 < b.length ∧
      step table b p = .ok (p + 1, [Event.invalidByte v0.val p])) := by
  have hp := lt_length_of_getElem? h0
  have hv0 := v0.isLt
  have hN4 := leadTier_le v0.val
  have hcases : leadTier v0.val = 0 ∨ leadTier v0.val = 1 ∨ leadTier v0.val = 2 ∨
      leadTier v0.val = 3 ∨ leadTier v0.val = 4 := by omega
  rcases hcases with h | h | h | h | h
  · have hr := (leadTier_zero _).mp h
    by_cases hn : p + 3 < b.length
    · exact Or.inr (Or.inr ⟨h, hn, step_invalid table b p v0 h0 (by omega) hn⟩)
    · refine Or.inr (Or.inl ⟨by omega, Or.inl h, ?_⟩)
      have hc : b.length = p + 1 ∨ b.length = p + 2 ∨ b.length = p + 3 := by omega
      rcases hc with e | e | e
      · rw [e]; exact step_short1 table b p v0 h0 (by omega) (by omega)
      · rw [e]; exact step_short2 table b p v0 h0 (by omega) e
      · rw [e]; exact step_short3 table b p v0 h0 (by omega) e
  · have hr := (leadTier_one _).mp h
    refine Or.inl ⟨by omega, by omega, ?_⟩
    rw [h, tierCall_one]
    exact step_SM table b p v0 h0 hr
  · have hr := (leadTier_two _).mp h
    by_cases hn : p + 2 ≤ b.length
    · refine Or.inl ⟨by omega, by omega, ?_⟩
      rw [h, tierCall_two]
      exact step_MED table b p v0 h0 hr (by omega)
    · refine Or.inr (Or.inl ⟨by omega, Or.inr (by omega), ?_⟩)
      have e : b.length = p + 1 := by omega
      rw [e]; exact step_short1 table b p v0 h0 (by omega) (by omega)
  · have hr := (leadTier_three _).mp h
    by_cases hn : p + 3 ≤ b.length
    · refine Or.inl ⟨by omega, by omega, ?_⟩
      rw [h, tierCall_three]
      exact step_LG table b p v0 h0 hr (by omega)
    · refine Or.inr (Or.inl ⟨by omega, Or.inr (by omega), ?_⟩)
      have hc : b.length = p + 1 ∨ b.length = p + 2 := by omega
      rcases hc with e | e
      · rw [e]; exact step_short1 table b p v0 h0 (by omega) (by omega)
      · rw [e]; exact step_short2 table b p v0 h0 (by omega) e
  · have hr := (leadTier_four _).mp h
    by_cases hn : p + 4 ≤ b.length
    · refine Or.inl ⟨by omega, by omega, ?_⟩
      rw [h, tierCall_four]
      exact step_XL table b p v0 h0 hr (by omega)
    · refine Or.inr (Or.inl ⟨by omega, Or.inr (by omega), ?_⟩)
      have hc : b.length = p + 1 ∨ b.length = p + 2 ∨ b.length = p + 3 := by omega
      rcases hc with e | e | e
      · rw [e]; exact step_short1 table b p v0 h0 (by omega) (by omega)
      · rw [e]; exact step_short2 table b p v0 h0 (by omega) e
      · rw [e]; exact step_short3 table b p v0 h0 (by omega) e

/-- What the call of `isCode` for the tier of the lead byte yields when the
tier fits in the buffer: on a structurally valid sequence, the test against
`max` and the lookup of its value; otherwise one `Invalid byte` line for the
first byte after the lead that is not a continuation byte. -/
theorem tierCall_eval (table : List CodePoint) (b : List Byte) (p N : Nat) (v0 : Byte)
    (h0 : b[p]? = some v0) (hN : leadTier v0.val = N) (h1 : 1 ≤ N) (hlen : p + N ≤ b.length) :
    (WellFormedAt b p N ∧
      tierCall table b p N = resolve table (seqValue (window b p N)) p (prevTierMax N)) ∨
    (∃ (i : Nat) (w : Byte), 1 ≤ i ∧ i < N ∧ b[p + i]? = some w ∧ ¬ isCont w.val ∧
      (∀ j, 1 ≤ j → j < i → ∃ u, b[p + j]? = some u ∧ isCont u.val) ∧
      tierCall table b p N = .ok (true, [Event.invalidByte w.val (p + i)])) := by
  have hN4 : N ≤ 4 := hN ▸ leadTier_le _
  have hcases : N = 1 ∨ N = 2 ∨ N = 3 ∨ N = 4 := by omega
  rcases hcases with h | h | h | h <;> subst h
  · have hw : WellFormedAt b p 1 :=
      ⟨hlen, ⟨v0, h0, hN⟩, fun j hj1 hj2 => absurd hj1 (by omega)⟩
    refine Or.inl ⟨hw, ?_⟩
    rw [tierCall_one, isCode_SM_eval table b p v0 h0 ((leadTier_one _).mp hN),
      window_one b p v0 h0]
    have : v0.val % 128 = v0.val := Nat.mod_eq_of_lt ((leadTier_one _).mp hN)
    simp [seqValue, prevTierMax, this]
  · obtain ⟨v1, e1⟩ := getElem?_of_lt b (p + 1) (by omega)
    rw [tierCall_two, isCode_MED_eval table b p v0 v1 h0 e1 ((leadTier_two _).mp hN)]
    by_cases c1 : isCont v1.val
    · have hw : WellFormedAt b p 2 := by
        refine ⟨hlen, ⟨v0, h0, hN⟩, fun j hj1 hj2 => ?_⟩
        have : j = 1 := by omega
        subst this
        exact ⟨v1, e1, c1⟩
      refine Or.inl ⟨hw, ?_⟩
      rw [if_pos c1, window_two b p v0 v1 h0 e1]
      simp [seqValue, prevTierMax]
    · refine Or.inr ⟨1, v1, le_refl _, by omega, e1, c1,
        fun j hj1 hj2 => absurd hj1 (by omega), ?_⟩
      rw [if_neg c1]
  · obtain ⟨v1, e1⟩ := getElem?_of_lt b (p + 1) (by omega)
    obtain ⟨v2, e2⟩ := getElem?_of_lt b (p + 2) (by omega)
    rw [tierCall_three,
      isCode_LG_eval table b p v0 v1 v2 h0 e1 e2 ((leadTier_three _).mp hN)]
    by_cases c1 : isCont v1.val
    · by_cases c2 : isCont v2.val
      · have hw : WellFormedAt b p 3 := by
          refine ⟨hlen, ⟨v0, h0, hN⟩, fun j hj1 hj2 => ?_⟩
          have : j = 1 ∨ j = 2 := by omega
          rcases this with h | h <;> subst h
          · exact ⟨v1, e1, c1⟩
          · exact ⟨v2, e2, c2⟩
        refine Or.inl ⟨hw, ?_⟩
        rw [if_pos c1, if_pos c2, window_three b p v0 v1 v2 h0 e1 e2]
        simp [seqValue, prevTierMax]
      · refine Or.inr ⟨2, v2, by omega, by omega, e2, c2, fun j hj1 hj2 => ?_, ?_⟩
        · have : j = 1 := by omega
          subst this
          exact ⟨v1, e1, c1⟩
        · rw [if_pos c1, if_neg c2]
    · refine Or.inr ⟨1, v1, le_refl _, by omega, e1, c1,
        fun j hj1 hj2 => absurd hj1 (by omega), ?_⟩
      rw [if_neg c1]
  · obtain ⟨v1, e1⟩ := getElem?_of_lt b (p + 1) (by omega)
    obtain ⟨v2, e2⟩ := getElem?_of_lt b (p + 2) (by omega)
    obtain ⟨v3, e3⟩ := getElem?_of_lt b (p + 3) (by omega)
    rw [tierCall_four,
      isCode_XL_eval table b p v0 v1 v2 v3 h0 e1 e2 e3 ((leadTier_four _).mp hN)]
    by_cases c1 : isCont v1.val
    · by_cases c2 : isCont v2.val
      · by_cases c3 : isCont v3.val
        · have hw : WellFormedAt b p 4 := by
            refine ⟨hlen, ⟨v0, h0, hN⟩, fun j hj1 hj2 => ?_⟩
            have : j = 1 ∨ j = 2 ∨ j = 3 := by omega
            rcases this with h | h | h <;> subst h
            · exact ⟨v1, e1, c1⟩
            · exact ⟨v2, e2, c2⟩
            · exact ⟨v3, e3, c3⟩
          refine Or.inl ⟨hw, ?_⟩
          rw [if_pos c1, if_pos c2, if_pos c3, window_four b p v0 v1 v2 v3 h0 e1 e2 e3]
          simp [seqValue, prevTierMax]
        · refine Or.inr ⟨3, v3, by omega, by omega, e3, c3, fun j hj1 hj2 => ?_, ?_⟩
          · have : j = 1 ∨ j = 2 := by omega
            rcases this with h | h <;> subst h
            · exact ⟨v1, e1, c1⟩
            · exact ⟨v2, e2, c2⟩
          · rw [if_pos c1, if_pos c2, if_neg c3]
      · refine Or.inr ⟨2, v2, by omega, by omega, e2, c2, fun j hj1 hj2 => ?_, ?_⟩
        · have : j = 1 := by omega
          subst this
          exact ⟨v1, e1, c1⟩
        · rw [if_pos c1, if_neg c2]
    · refine Or.inr ⟨1, v1, le_refl _, by omega, e1, c1,
        fun j hj1 hj2 => absurd hj1 (by omega), ?_⟩
      rw [if_neg c1]

/-- What `reportCode` can return: found with one name printed, or not found
with nothing printed. -/
theorem reportCode_ok_shape (table : List CodePoint) (code : Int) (fl : Bool)
    (out : List Event) (h : reportCode table code = .ok (fl, out)) :
    (fl = true ∧ ∃ s, out = [Event.name s]) ∨ (fl = false ∧ out = []) := by
  unfold reportCode at h
  dsimp only at h
  split at h
  · cases h
  · split at h
    · cases h
    · split at h
      · cases h; exact Or.inl ⟨rfl, _, rfl⟩
      · cases h; exact Or.inr ⟨rfl, rfl⟩

/-- The statements after `newCode`: a fault can only come from the lookup. -/
theorem resolve_error (table : List CodePoint) (newCode loc : Nat) (max : Int) (f : Fault)
    (h : resolve table newCode loc max = .error f) :
    reportCode table (sint32 newCode) = .error f := by
  unfold resolve at h
  split at h
  · cases h
  · split at h
    · rename_i f2 hf2
      cases h
      exact hf2
    · split at h <;> cases h

/-- The statements after `newCode` print exactly one line: `Invalid
encoding`, a name, or `Unknown code`. -/
theorem resolve_ok_shape (table : List CodePoint) (newCode loc : Nat) (max : Int)
    (fl : Bool) (out : List Event) (h : resolve table newCode loc max = .ok (fl, out)) :
    (sint32 newCode ≤ max ∧ out = [Event.invalidEncoding newCode loc]) ∨
    (max < sint32 newCode ∧
      ((∃ s, reportCode table (sint32 newCode) = .ok (true, [Event.name s]) ∧
          out = [Event.name s]) ∨
        (reportCode table (sint32 newCode) = .ok (false, []) ∧
          out = [Event.unknownCode newCode loc]))) := by
  unfold resolve at h
  split at h
  · rename_i hle
    cases h
    exact Or.inl ⟨hle, rfl⟩
  · rename_i hle
    refine Or.inr ⟨not_le.mp hle, ?_⟩
    split at h
    · cases h
    · rename_i found out2 hr
      rcases reportCode_ok_shape _ _ _ _ hr with ⟨hf, s, hs⟩ | ⟨hf, hs⟩
      · subst hf; subst hs
        simp only [Bool.not_true] at h
        cases h
        exact Or.inl ⟨s, hr, rfl⟩
      · subst hf; subst hs
        simp only [Bool.not_false, if_true, List.nil_append] at h
        cases h
        exact Or.inr ⟨hr, rfl⟩

/-- An iteration that does not complete has faulted inside a lookup, of a
value from 1 to 0x1FFFFF. -/
theorem step_error_shape (table : List CodePoint) (b : List Byte) (p : Nat) (v0 : Byte)
    (h0 : b[p]? = some v0) (f : Fault) (h : step table b p = .error f) :
    ∃ c : Nat, 1 ≤ c ∧ c < 2097152 ∧ reportCode table (c : Int) = .error f := by
  rcases step_cases table b p v0 h0 with ⟨h1, hlen, hs⟩ | ⟨_, _, hs⟩ | ⟨_, _, hs⟩
  · rw [hs] at h
    rcases tierCall_eval table b p _ v0 h0 rfl h1 hlen with ⟨_, ht⟩ | ⟨_, _, _, _, _, _, _, ht⟩
    · rw [ht] at h
      have hlt := seqValue_window_lt b p (leadTier v0.val)
      cases hr : resolve table (seqValue (window b p (leadTier v0.val))) p
          (prevTierMax (leadTier v0.val)) with
      | error f2 =>
        rw [hr] at h
        have hf : f2 = f := by simpa [advance] using h
        subst hf
        have hrep := resolve_error _ _ _ _ _ hr
        rw [sint32_of_lt _ (by omega)] at hrep
        refine ⟨_, ?_, hlt, hrep⟩
        by_contra hc
        have hz : seqValue (window b p (leadTier v0.val)) = 0 := by omega
        rw [hz] at hr
        rw [resolve_le table 0 p _ (by omega) (Nat.zero_le _)] at hr
        cases hr
      | ok r =>
        rw [hr] at h
        simp [advance] at h
    · rw [ht] at h
      simp [advance] at h
  · rw [hs] at h; cases h
  · rw [hs] at h; cases h

/-- An iteration that completes prints exactly one line and moves `location`
forward: by the tier of the lead byte when the tier fits in the buffer, to
the end of the buffer with `Incomplete code`, or by 1 with `Invalid byte`. -/
theorem step_ok_shape (table : List CodePoint) (b : List Byte) (p : Nat) (v0 : Byte)
    (h0 : b[p]? = some v0) (p2 : Nat) (out : List Event)
    (h : step table b p = .ok (p2, out)) :
    (1 ≤ leadTier v0.val ∧ p2 = p + leadTier v0.val ∧ p2 ≤ b.length ∧
      ∃ e, out = [e] ∧ e.isIncomplete = false) ∨
    (b.length ≤ p + 3 ∧ (leadTier v0.val = 0 ∨ b.length < p + leadTier v0.val) ∧
      p2 = b.length ∧ out = [Event.incomplete p]) ∨
    (leadTier v0.val = 0 ∧ p + 3 < b.length ∧ p2 = p + 1 ∧
      out = [Event.invalidByte v0.val p]) := by
  rcases step_cases table b p v0 h0 with ⟨h1, hlen, hs⟩ | ⟨h1, h2, hs⟩ | ⟨h1, h2, hs⟩
  · rw [hs] at h
    refine Or.inl ⟨h1, ?_⟩
    rcases tierCall_eval table b p _ v0 h0 rfl h1 hlen with ⟨_, ht⟩ | ⟨_, _, _, _, _, _, _, ht⟩
    · rw [ht] at h
      cases hr : resolve table (seqValue (window b p (leadTier v0.val))) p
          (prevTierMax (leadTier v0.val)) with
      | error f2 =>
        rw [hr] at h
        simp [advance] at h
      | ok r =>
        obtain ⟨fl, out2⟩ := r
        rw [hr] at h
        simp only [advance, Except.ok.injEq, Prod.mk.injEq] at h
        obtain ⟨hp2, hout⟩ := h
        subst hp2; subst hout
        refine ⟨rfl, hlen, ?_⟩
        rcases resolve_ok_shape _ _ _ _ _ _ hr with ⟨_, ho⟩ | ⟨_, ⟨s, _, ho⟩ | ⟨_, ho⟩⟩
        · exact ⟨_, ho, rfl⟩
        · exact ⟨_, ho, rfl⟩
        · exact ⟨_, ho, rfl⟩
    · rw [ht] at h
      simp only [advance, Except.ok.injEq, Prod.mk.injEq] at h
      obtain ⟨hp2, hout⟩ := h
      subst hp2; subst hout
      exact ⟨rfl, hlen, _, rfl, rfl⟩
  · rw [hs] at h
    simp only [Except.ok.injEq, Prod.mk.injEq] at h
    exact Or.inr (Or.inl ⟨h1, h2, h.1.symm, h.2.symm⟩)
  · rw [hs] at h
    simp only [Except.ok.injEq, Prod.mk.injEq] at h
    exact Or.inr (Or.inr ⟨h1, h2, h.1.symm, h.2.symm⟩)

/-- The arithmetic of an iteration that completes: `location` grows by 1, 2,
3 or 4 and stays within the buffer. -/
theorem step_ok_bounds (table : List CodePoint) (b : List Byte) (p : Nat) (hp : p < b.length)
    (p2 : Nat) (out : List Event) (h : step table b p = .ok (p2, out)) :
    p < p2 ∧ p2 ≤ p + 4 ∧ p2 ≤ b.length ∧ out.length = 1 := by
  obtain ⟨v0, h0⟩ := getElem?_of_lt b p hp
  have h4 := leadTier_le v0.val
  rcases step_ok_shape table b p v0 h0 p2 out h with
    ⟨h1, h2, h3, e, he, _⟩ | ⟨h1, _, h3, he⟩ | ⟨_, h2, h3, he⟩
  · subst he; exact ⟨by omega, by omega, h3, rfl⟩
  · subst he; exact ⟨by omega, by omega, by omega, rfl⟩
  · subst he; exact ⟨by omega, by omega, by omega, rfl⟩

/-! ## The scanning loop as a whole -/

theorem scanTrace_at_end (table : List CodePoint) (b : List Byte) (fuel p : Nat)
    (hp : b.length ≤ p) : scanTrace table b fuel p = .ok ([], p, []) := by
  unfold scanTrace
  rw [if_neg (by omega)]

/-- The lines printed by the recording loop are those of the loop itself. -/
theorem scanLoop_eq_trace (table : List CodePoint) (b : List Byte) :
    ∀ (fuel p : Nat), scanLoop table b fuel p
      = match scanTrace table b fuel p with
        | .error f => .error f
        | .ok (_, _, ev) => .ok ev := by
  intro fuel
  induction fuel with
  | zero =>
    intro p
    unfold scanLoop scanTrace
    by_cases hp : p < b.length
    · simp only [if_pos hp]
    · simp only [if_neg hp]
  | succ fuel ih =>
    intro p
    rw [scanLoop, scanTrace]
    by_cases hp : p < b.length
    · simp only [if_pos hp]
      cases hs : step table b p with
      | error f => rfl
      | ok r =>
        obtain ⟨p2, out⟩ := r
        simp only []
        rw [ih p2]
        cases scanTrace table b fuel p2 with
        | error f => rfl
        | ok t => rfl
    · simp only [if_neg hp]

/-- With fuel for the bytes that remain, the loop stops early only on a fault
inside a lookup: it never needs more iterations than there are bytes. -/
theorem scanTrace_error_shape (table : List CodePoint) (b : List Byte) :
    ∀ (fuel p : Nat) (f : Fault), b.length - p ≤ fuel →
      scanTrace table b fuel p = .error f →
      ∃ c : Nat, 1 ≤ c ∧ c < 2097152 ∧ reportCode table (c : Int) = .error f := by
  intro fuel
  induction fuel with
  | zero =>
    intro p f hfuel h
    rw [scanTrace_at_end table b 0 p (by omega)] at h
    cases h
  | succ fuel ih =>
    intro p f hfuel h
    by_cases hp : p < b.length
    · obtain ⟨v0, h0⟩ := getElem?_of_lt b p hp
      rw [scanTrace, if_pos hp] at h
      cases hs : step table b p with
      | error f2 =>
        rw [hs] at h
        simp only [Except.error.injEq] at h
        subst h
        exact step_error_shape table b p v0 h0 _ hs
      | ok r =>
        obtain ⟨p2, out⟩ := r
        rw [hs] at h
        simp only [] at h
        have hb := step_ok_bounds table b p hp p2 out hs
        cases ht : scanTrace table b fuel p2 with
        | error f2 =>
          rw [ht] at h
          simp only [Except.error.injEq] at h
          subst h
          exact ih p2 _ (by omega) ht
        | ok t =>
          rw [ht] at h
          cases h
    · rw [scanTrace_at_end table b _ p (by omega)] at h
      cases h

/-- A run of the loop that returns: it ends with `location` equal to the
buffer length; it printed one line per iteration; it made at most one
iteration per remaining byte; consecutive values of `location` differ by 1
to 4; and an `Incomplete code` line, if any, is the only one and the last
line printed. -/
theorem scanTrace_ok_shape (table : List CodePoint) (b : List Byte) :
    ∀ (fuel p : Nat) (starts : List Nat) (final : Nat) (ev : List Event), p ≤ b.length →
      scanTrace table b fuel p = .ok (starts, final, ev) →
      final = b.length ∧ ev.length = starts.length ∧ starts.length ≤ b.length - p ∧
      (starts ++ [final]).head? = some p ∧
      List.Chain' (fun a c => a < c ∧ c ≤ a + 4 ∧ c ≤ b.length) (starts ++ [final]) ∧
      ev.countP Event.isIncomplete ≤ 1 ∧
      (∀ i q, ev[i]? = some (Event.incomplete q) → i + 1 = ev.length) := by
  intro fuel
  induction fuel with
  | zero =>
    intro p starts final ev hpn h
    by_cases hp : p < b.length
    · rw [scanTrace, if_pos hp] at h
      cases h
    · rw [scanTrace_at_end table b 0 p (by omega)] at h
      cases h
      refine ⟨by omega, rfl, Nat.zero_le _, rfl, List.chain'_singleton _, Nat.zero_le _, ?_⟩
      intro i q hq
      simp at hq
  | succ fuel ih =>
    intro p starts final ev hpn h
    by_cases hp : p < b.length
    · obtain ⟨v0, h0⟩ := getElem?_of_lt b p hp
      rw [scanTrace, if_pos hp] at h
      cases hs : step table b p with
      | error f2 =>
        rw [hs] at h
        cases h
      | ok r =>
        obtain ⟨p2, out⟩ := r
        rw [hs] at h
        simp only [] at h
        have hb := step_ok_bounds table b p hp p2 out hs
        cases ht : scanTrace table b fuel p2 with
        | error f2 =>
          rw [ht] at h
          cases h
        | ok t =>
          obtain ⟨starts2, final2, rest⟩ := t
          rw [ht] at h
          simp only [Except.ok.injEq, Prod.mk.injEq] at h
          obtain ⟨hst, hfin, hev⟩ := h
          subst hst; subst hfin; subst hev
          obtain ⟨i1, i2, i3, i4, i5, i6, i7⟩ := ih p2 starts2 final2 rest hb.2.2.1 ht
          have hshape := step_ok_shape table b p v0 h0 p2 out hs
          have hout : ∃ e, out = [e] ∧
              (e.isIncomplete = true → rest = []) := by
            rcases hshape with ⟨_, _, _, e, he, hne⟩ | ⟨_, _, hp2, he⟩ | ⟨_, _, _, he⟩
            · exact ⟨e, he, fun hc => absurd hc (by simp [hne])⟩
            · refine ⟨_, he, fun _ => ?_⟩
              rw [scanTrace_at_end table b fuel p2 (by omega)] at ht
              cases ht
              rfl
            · exact ⟨_, he, fun hc => absurd hc (by simp [Event.isIncomplete])⟩
          obtain ⟨e, he, hlast⟩ := hout
          subst he
          refine ⟨i1, by simp [i2], by simp; omega, rfl, ?_, ?_, ?_⟩
          · rw [List.cons_append]
            refine List.Chain'.cons' i5 ?_
            intro y hy
            rw [i4] at hy
            cases hy
            exact ⟨hb.1, hb.2.1, hb.2.2.1⟩
          · rw [List.singleton_append, List.countP_cons]
            by_cases hc : e.isIncomplete = true
            · rw [hlast hc]
              simp [hc]
            · simp only [hc]
              simpa using i6
          · intro i q hq
            cases i with
            | zero =>
              simp only [List.singleton_append, List.getElem?_cons_zero, Option.some.injEq] at hq
              subst hq
              rw [hlast rfl]
              rfl
            | succ j =>
              simp only [List.singleton_append, List.getElem?_cons_succ] at hq
              have := i7 j q hq
              simp only [List.singleton_append, List.length_cons]
              omega
    · rw [scanTrace_at_end table b _ p (by omega)] at h
      cases h
      refine ⟨by omega, rfl, Nat.zero_le _, rfl, List.chain'_singleton _, Nat.zero_le _, ?_⟩
      intro i q hq
      simp at hq

/-- On a sorted table of at most `2^30` entries, a lookup of a code that is
not above every loaded code returns. -/
theorem reportCode_returns (table : List CodePoint) (code : Int)
    (hs : SortedByCode table) (hlen : table.length ≤ 1073741824)
    (hin : ∃ cp ∈ table, code ≤ cp.code) :
    ∃ r, reportCode table code = .ok r := by
  obtain ⟨s, _, hbelow, _, hrep⟩ := reportCode_lowerBound table code hs hlen
  obtain ⟨cp, hcp, hcode⟩ := hin
  obtain ⟨j, hj, hjeq⟩ := List.getElem_of_mem hcp
  have hsj : s ≤ j := by
    by_contra hcon
    have := hbelow j hj (by omega)
    rw [hjeq] at this
    exact absurd this (not_lt.mpr hcode)
  have hslt : s < table.length := by omega
  rw [hrep, tableAt_of_lt table s hslt]
  by_cases hc : code = table[s].code
  · exact ⟨(true, [Event.name table[s].name]), by simp only [if_pos hc]⟩
  · exact ⟨(false, []), by simp only [if_neg hc]⟩

theorem scanTrace_of_processInput (table : List CodePoint) (b : List Byte) (ev : List Event)
    (h : processInput table b = .ok ev) :
    ∃ starts final, scanTrace table b b.length 0 = .ok (starts, final, ev) := by
  unfold processInput at h
  rw [scanLoop_eq_trace] at h
  cases ht : scanTrace table b b.length 0 with
  | error f => rw [ht] at h; cases h
  | ok t =>
    obtain ⟨starts, final, ev2⟩ := t
    rw [ht] at h
    simp only [Except.ok.injEq] at h
    subst h
    exact ⟨starts, final, rfl⟩

/-- Scan progress where the code keeps it: every iteration that completes
moves `location` forward by 1, 2, 3 or 4; an iteration fails to complete only when
the lookup it calls reads outside the table (no diagnostic stops the loop);
the loop leaves within `n` iterations on a buffer of length `n`, never
wanting more fuel, and when it returns `location` has reached `n`; on a
table whose lookups of the values 1 .. 0x1FFFFF all return it always
returns. -/
theorem scan_progress (table : List CodePoint) (b : List Byte) :
    (∀ p p2 out, p < b.length → step table b p = .ok (p2, out) →
      p2 = p + 1 ∨ p2 = p + 2 ∨ p2 = p + 3 ∨ p2 = p + 4) ∧
    (∀ p f, p < b.length → step table b p = .error f →
      ∃ c : Nat, 1 ≤ c ∧ c < 2097152 ∧ reportCode table (c : Int) = .error f) ∧
    (∀ f, scanTrace table b b.length 0 = .error f →
      ∃ c : Nat, 1 ≤ c ∧ c < 2097152 ∧ reportCode table (c : Int) = .error f) ∧
    (∀ starts final ev, scanTrace table b b.length 0 = .ok (starts, final, ev) →
      starts.length ≤ b.length ∧ final = b.length ∧ processInput table b = .ok ev) ∧
    ((∀ c : Nat, 1 ≤ c → c < 2097152 → ∃ r, reportCode table (c : Int) = .ok r) →
      ∃ starts ev, scanTrace table b b.length 0 = .ok (starts, b.length, ev) ∧
        starts.length ≤ b.length ∧ processInput table b = .ok ev) := by
  have hok : ∀ starts final ev, scanTrace table b b.length 0 = .ok (starts, final, ev) →
      starts.length ≤ b.length ∧ final = b.length ∧ processInput table b = .ok ev := by
    intro starts final ev h
    obtain ⟨i1, _, i3, _⟩ := scanTrace_ok_shape table b _ 0 starts final ev (Nat.zero_le _) h
    refine ⟨by omega, i1, ?_⟩
    unfold processInput
    rw [scanLoop_eq_trace, h]
  refine ⟨?_, ?_, ?_, hok, ?_⟩
  · intro p p2 out hp h
    have := step_ok_bounds table b p hp p2 out h
    omega
  · intro p f hp h
    obtain ⟨v0, h0⟩ := getElem?_of_lt b p hp
    exact step_error_shape table b p v0 h0 f h
  · intro f h
    exact scanTrace_error_shape table b _ 0 f (by omega) h
  · intro hret
    cases ht : scanTrace table b b.length 0 with
    | error f =>
      obtain ⟨c, h1, h2, h3⟩ := scanTrace_error_shape table b _ 0 f (by omega) ht
      obtain ⟨r, hr⟩ := hret c h1 h2
      rw [hr] at h3
      cases h3
    | ok t =>
      obtain ⟨starts, final, ev⟩ := t
      obtain ⟨i1, i2, i3⟩ := hok starts final ev ht
      subst i2
      exact ⟨starts, ev, rfl, i1, i3⟩

/-- An instance of the scan to the end: a table whose last code is 0x1FFFFF,
on which every lookup the scanner can make returns, and a buffer of seven bytes scanned in
four iterations. -/
theorem scan_progress_witness :
    ∃ starts ev,
      scanTrace [⟨0x41, "LATIN CAPITAL LETTER A"⟩, ⟨0x1FFFFF, "LAST"⟩]
          [0x41, 0xE2, 0x82, 0xAC, 0xFF, 0xC3, 0xA9] 7 0 = .ok (starts, 7, ev) ∧
        starts.length ≤ 7 ∧
        processInput [⟨0x41, "LATIN CAPITAL LETTER A"⟩, ⟨0x1FFFFF, "LAST"⟩]
          [0x41, 0xE2, 0x82, 0xAC, 0xFF, 0xC3, 0xA9] = .ok ev :=
  (scan_progress [⟨0x41, "LATIN CAPITAL LETTER A"⟩, ⟨0x1FFFFF, "LAST"⟩]
      [0x41, 0xE2, 0x82, 0xAC, 0xFF, 0xC3, 0xA9]).2.2.2.2
    (fun c _ h2 => reportCode_returns _ _ (by unfold SortedByCode; decide) (by decide)
      ⟨⟨0x1FFFFF, "LAST"⟩, by decide, by
        show (c : Int) ≤ 2097151
        omega⟩)


/-- C12, where the code departs from it: on the table holding only 0x41 and
the buffer 0x41 0x42 the first iteration prints the name and moves
`location` to 1, and the second calls `reportCode( 0x42 )`, which reads
`table[ 1 ]` outside the table: the scan stops there, with `location` still
1, and does not reach the end of the buffer. -/
theorem scan_stops_in_lookup :
    step [⟨0x41, "LATIN CAPITAL LETTER A"⟩] [0x41, 0x42] 0
      = .ok (1, [Event.name "LATIN CAPITAL LETTER A"]) ∧
    reportCode [⟨0x41, "LATIN CAPITAL LETTER A"⟩] 0x42 = .error (.tableRead 1) ∧
    step [⟨0x41, "LATIN CAPITAL LETTER A"⟩] [0x41, 0x42] 1 = .error (.tableRead 1) ∧
    scanTrace [⟨0x41, "LATIN CAPITAL LETTER A"⟩] [0x41, 0x42] 2 0 = .error (.tableRead 1) ∧
    processInput [⟨0x41, "LATIN CAPITAL LETTER A"⟩] [0x41, 0x42] = .error (.tableRead 1) := by
  decide

/-- C15. Lead-byte classification determines the consumed length: the four
tests of `processInput` are the four byte ranges, so every byte is in exactly
one class (`leadTier` gives it, 0 for the bytes of no tier); and an iteration
whose lead byte is of tier `N` with `N` bytes in the buffer is the call of
`isCode` for that tier followed by `location += N`: whenever it completes,
with a name, `Unknown code`, `Invalid encoding` or `Invalid byte`, it has
consumed exactly `N` bytes, and it fails to complete only on a fault inside
the lookup. -/
theorem lead_class_determines_length (table : List CodePoint) (b : List Byte) :
    (∀ v : Byte,
      (v.val &&& SM_TEST_MASK = EXP_SM ↔ v.val ≤ 0x7F) ∧
      (v.val &&& MED_TEST_MASK = EXP_MED ↔ 0xC0 ≤ v.val ∧ v.val ≤ 0xDF) ∧
      (v.val &&& LG_TEST_MASK = EXP_LG ↔ 0xE0 ≤ v.val ∧ v.val ≤ 0xEF) ∧
      (v.val &&& XL_TEST_MASK = EXP_XL ↔ 0xF0 ≤ v.val ∧ v.val ≤ 0xF7) ∧
      (v.val &&& SM_TEST_MASK = EXP_SM ↔ leadTier v.val = 1) ∧
      (v.val &&& MED_TEST_MASK = EXP_MED ↔ leadTier v.val = 2) ∧
      (v.val &&& LG_TEST_MASK = EXP_LG ↔ leadTier v.val = 3) ∧
      (v.val &&& XL_TEST_MASK = EXP_XL ↔ leadTier v.val = 4) ∧
      (leadTier v.val = 0 ↔ (0x80 ≤ v.val ∧ v.val ≤ 0xBF) ∨ 0xF8 ≤ v.val)) ∧
    (∀ (p N : Nat) (v0 : Byte), b[p]? = some v0 → leadTier v0.val = N → 1 ≤ N →
      p + N ≤ b.length →
      step table b p = advance p N (tierCall table b p N) ∧
      (∀ p2 out, step table b p = .ok (p2, out) →
        p2 = p + N ∧
        ((∃ s, out = [Event.name s]) ∨ (∃ c, out = [Event.unknownCode c p]) ∨
          (∃ c, out = [Event.invalidEncoding c p]) ∨
          (∃ byte loc, out = [Event.invalidByte byte loc]))) ∧
      (∀ f, step table b p = .error f →
        ∃ c : Nat, 1 ≤ c ∧ c < 2097152 ∧ reportCode table (c : Int) = .error f)) := by
  constructor
  · intro v
    have h1 := test_SM v
    have h2 := test_MED v
    have h3 := test_LG v
    have h4 := test_XL v
    have l0 := leadTier_zero v.val
    have l1 := leadTier_one v.val
    have l2 := leadTier_two v.val
    have l3 := leadTier_three v.val
    have l4 := leadTier_four v.val
    refine ⟨?_, ?_, ?_, ?_, ?_, ?_, ?_, ?_, ?_⟩
    · rw [h1]; omega
    · rw [h2]; omega
    · rw [h3]; omega
    · rw [h4]; omega
    · rw [h1, l1]
    · rw [h2, l2]
    · rw [h3, l3]
    · rw [h4, l4]
    · rw [l0]; omega
  · intro p N v0 h0 hN h1 hlen
    have hstep : step table b p = advance p N (tierCall table b p N) := by
      rcases step_cases table b p v0 h0 with ⟨_, _, hs⟩ | ⟨_, h2, _⟩ | ⟨h2, _, _⟩
      · rw [hN] at hs; exact hs
      · rw [hN] at h2; omega
      · rw [hN] at h2; omega
    refine ⟨hstep, ?_, fun f hf => step_error_shape table b p v0 h0 f hf⟩
    intro p2 out h
    rw [hstep] at h
    rcases tierCall_eval table b p N v0 h0 hN h1 hlen with
      ⟨_, ht⟩ | ⟨i, w, _, _, _, _, _, ht⟩
    · rw [ht] at h
      cases hr : resolve table (seqValue (window b p N)) p (prevTierMax N) with
      | error f2 =>
        rw [hr] at h
        simp [advance] at h
      | ok r =>
        obtain ⟨fl, out2⟩ := r
        rw [hr] at h
        simp only [advance, Except.ok.injEq, Prod.mk.injEq] at h
        obtain ⟨hp2, hout⟩ := h
        subst hp2; subst hout
        refine ⟨rfl, ?_⟩
        rcases resolve_ok_shape _ _ _ _ _ _ hr with ⟨_, ho⟩ | ⟨_, ⟨s, _, ho⟩ | ⟨_, ho⟩⟩
        · exact Or.inr (Or.inr (Or.inl ⟨_, ho⟩))
        · exact Or.inl ⟨s, ho⟩
        · exact Or.inr (Or.inl ⟨_, ho⟩)
    · rw [ht] at h
      simp only [advance, Except.ok.injEq, Prod.mk.injEq] at h
      obtain ⟨hp2, hout⟩ := h
      subst hp2; subst hout
      exact ⟨rfl, Or.inr (Or.inr (Or.inr ⟨_, _, rfl⟩))⟩

/-- Witness of C15: a 3-byte lead with an invalid byte after it, followed by
enough bytes: the iteration consumes 3 bytes. -/
theorem lead_class_determines_length_witness :
    step [] [0xE2, 0x41, 0xAC, 0x41] 0
      = advance 0 3 (tierCall [] [0xE2, 0x41, 0xAC, 0x41] 0 3) ∧
    step [] [0xE2, 0x41, 0xAC, 0x41] 0 = .ok (3, [Event.invalidByte 0x41 1]) :=
  ⟨((lead_class_determines_length [] [0xE2, 0x41, 0xAC, 0x41]).2 0 3 0xE2 rfl
      (by decide) (by decide) (by decide)).1, by decide⟩

/-- C16 as stated fails: with one byte left of a 3-byte lead (the 2-byte
bounds test fails) `location` moves on by 1, not 2; with two bytes left (the
3-byte test fails) by 2, not 3; with three bytes left of a 4-byte lead (the
4-byte test fails) by 3, not 4. -/
theorem incomplete_advance_is_not_tier_length :
    step [] [0xE2] 0 = .ok (1, [Event.incomplete 0]) ∧
    step [] [0xE2, 0x82] 0 = .ok (2, [Event.incomplete 0]) ∧
    step [] [0xF0, 0x9F, 0x98] 0 = .ok (3, [Event.incomplete 0]) := by
  decide

/-- C16, amended. Incomplete advancement rule: an iteration prints
`Incomplete code` exactly when fewer than 4 bytes remain and the lead byte
is of no tier that fits in them; it then prints that line alone, for the
position of the lead byte, and `location` advances by `SM_BYTES` = 1 when the
2-byte bounds test failed, by `MED_BYTES` = 2 when the 3-byte test failed and
by `LG_BYTES` = 3 when the 4-byte test failed: one less than the length of
the smallest tier whose test failed, which is the number of bytes that
remained. -/
theorem incomplete_advance (table : List CodePoint) (b : List Byte) (p : Nat) (v0 : Byte)
    (h0 : b[p]? = some v0) :
    (b.length ≤ p + 3 → leadTier v0.val = 0 ∨ b.length < p + leadTier v0.val →
      step table b p = .ok (b.length, [Event.incomplete p])) ∧
    (∀ p2 out q, step table b p = .ok (p2, out) → Event.incomplete q ∈ out →
      out = [Event.incomplete p] ∧ p2 = b.length ∧
      ((¬ p + MED_BYTES - 1 < b.length ∧ p2 = p + SM_BYTES) ∨
       (p + MED_BYTES - 1 < b.length ∧ ¬ p + LG_BYTES - 1 < b.length ∧
          p2 = p + MED_BYTES) ∨
       (p + LG_BYTES - 1 < b.length ∧ ¬ p + XL_BYTES - 1 < b.length ∧
          p2 = p + LG_BYTES))) := by
  have hp := lt_length_of_getElem? h0
  constructor
  · intro hn hl
    rcases step_cases table b p v0 h0 with ⟨h1, h2, _⟩ | ⟨_, _, hs⟩ | ⟨_, h2, _⟩
    · omega
    · exact hs
    · omega
  · intro p2 out q h hq
    rcases step_ok_shape table b p v0 h0 p2 out h with
      ⟨_, _, _, e, he, hne⟩ | ⟨h1, _, h3, he⟩ | ⟨_, _, _, he⟩
    · subst he
      simp only [List.mem_singleton] at hq
      subst hq
      simp [Event.isIncomplete] at hne
    · refine ⟨he, h3, ?_⟩
      simp only [MED_BYTES, LG_BYTES, XL_BYTES, SM_BYTES]
      omega
    · subst he
      simp at hq

/-- Witness of C16 amended: a 4-byte lead with two bytes after it. -/
theorem incomplete_advance_witness :
    step [] [0x41, 0xF0, 0x9F, 0x98] 1 = .ok (4, [Event.incomplete 1]) :=
  (incomplete_advance [] [0x41, 0xF0, 0x9F, 0x98] 1 0xF0 rfl).1 (by decide)
    (Or.inr (by decide))

/-- C17. The cursor never overshoots: an iteration that completes leaves
`location` at most the buffer length; one that prints `Incomplete code`
consumes exactly the 1, 2 or 3 bytes that remained; a run of the loop that
returns ends with `location` equal to the buffer length, every value of
`location` on the way being within the buffer; and the lines of a run hold
at most one `Incomplete code`, which is then the last line. -/
theorem cursor_never_overshoots (table : List CodePoint) (b : List Byte) :
    (∀ p p2 out, p < b.length → step table b p = .ok (p2, out) → p2 ≤ b.length) ∧
    (∀ p p2 out q, p < b.length → step table b p = .ok (p2, out) →
      Event.incomplete q ∈ out →
      p2 = b.length ∧ 1 ≤ b.length - p ∧ b.length - p ≤ 3 ∧ p2 - p = b.length - p) ∧
    (∀ starts final ev, scanTrace table b b.length 0 = .ok (starts, final, ev) →
      final = b.length ∧
      List.Chain' (fun a c => a < c ∧ c ≤ a + 4 ∧ c ≤ b.length) (starts ++ [final])) ∧
    (∀ ev, processInput table b = .ok ev →
      ev.countP Event.isIncomplete ≤ 1 ∧
      ∀ i q, ev[i]? = some (Event.incomplete q) → i + 1 = ev.length) := by
  refine ⟨?_, ?_, ?_, ?_⟩
  · intro p p2 out hp h
    exact (step_ok_bounds table b p hp p2 out h).2.2.1
  · intro p p2 out q hp h hq
    obtain ⟨v0, h0⟩ := getElem?_of_lt b p hp
    rcases step_ok_shape table b p v0 h0 p2 out h with
      ⟨_, _, _, e, he, hne⟩ | ⟨h1, _, h3, he⟩ | ⟨_, _, _, he⟩
    · subst he
      simp only [List.mem_singleton] at hq
      subst hq
      simp [Event.isIncomplete] at hne
    · exact ⟨h3, by omega, by omega, by omega⟩
    · subst he
      simp at hq
  · intro starts final ev h
    obtain ⟨i1, _, _, _, i5, _⟩ :=
      scanTrace_ok_shape table b _ 0 starts final ev (Nat.zero_le _) h
    exact ⟨i1, i5⟩
  · intro ev h
    obtain ⟨starts, final, ht⟩ := scanTrace_of_processInput table b ev h
    obtain ⟨_, _, _, _, _, i6, i7⟩ :=
      scanTrace_ok_shape table b _ 0 starts final ev (Nat.zero_le _) ht
    exact ⟨i6, i7⟩

/-- Witness of C17: a letter followed by a truncated 3-byte sequence. -/
theorem cursor_never_overshoots_witness :
    processInput [⟨0x41, "LATIN CAPITAL LETTER A"⟩] [0x41, 0xE2, 0x82]
      = .ok [Event.name "LATIN CAPITAL LETTER A", Event.incomplete 1] ∧
    [Event.name "LATIN CAPITAL LETTER A", Event.incomplete 1].countP Event.isIncomplete ≤ 1 :=
  ⟨by decide,
    ((cursor_never_overshoots [⟨0x41, "LATIN CAPITAL LETTER A"⟩] [0x41, 0xE2, 0x82]).2.2.2
      [Event.name "LATIN CAPITAL LETTER A", Event.incomplete 1] (by decide)).1⟩

/-! ## ASCII input -/

theorem storedName_first (code : Int) :
    ∀ (table : List CodePoint) (s : Nat) (h : s < table.length),
      table[s].code = code →
      (∀ (i : Nat) (hi : i < table.length), i < s → table[i].code < code) →
      storedName table code = table[s].name := by
  intro table
  induction table with
  | nil => intro s h; simp at h
  | cons cp rest ih =>
    intro s h hcode hbelow
    cases s with
    | zero =>
      simp only [List.getElem_cons_zero] at hcode ⊢
      simp [storedName, hcode]
    | succ s =>
      have h0 := hbelow 0 (by simp) (by omega)
      simp only [List.getElem_cons_zero] at h0
      have hne : ¬ cp.code = code := ne_of_lt h0
      simp only [List.getElem_cons_succ] at hcode ⊢
      simp only [storedName, hne, if_false]
      refine ih s (by simpa using h) hcode ?_
      intro i hi his
      have := hbelow (i + 1) (by simpa using hi) (by omega)
      simpa using this

theorem storedName_mem (code : Int) :
    ∀ (table : List CodePoint), (∃ cp ∈ table, cp.code = code) →
      ∃ cp ∈ table, cp.code = code ∧ cp.name = storedName table code := by
  intro table
  induction table with
  | nil => intro h; obtain ⟨cp, hcp, _⟩ := h; simp at hcp
  | cons cp rest ih =>
    intro h
    by_cases hc : cp.code = code
    · exact ⟨cp, by simp, hc, by simp [storedName, hc]⟩
    · obtain ⟨cp2, hcp2, hcode⟩ := h
      have hin : cp2 ∈ rest := by
        rcases List.mem_cons.mp hcp2 with e | e
        · subst e; exact absurd hcode hc
        · exact e
      obtain ⟨cp3, h3, h4, h5⟩ := ih ⟨cp2, hin, hcode⟩
      exact ⟨cp3, List.mem_cons_of_mem _ h3, h4, by simp [storedName, hc, h5]⟩

/-- The iteration on a byte from 0x01 to 0x7F whose value is in the sorted
table: the stored name is printed and `location` moves on by 1. -/
theorem step_ascii_present (table : List CodePoint) (b : List Byte) (p : Nat) (v0 : Byte)
    (hs : SortedByCode table) (hlen : table.length ≤ 1073741824)
    (h0 : b[p]? = some v0) (h1 : 1 ≤ v0.val) (h2 : v0.val < 128)
    (hmem : ∃ cp ∈ table, cp.code = (v0.val : Int)) :
    step table b p = .ok (p + 1, [Event.name (storedName table v0.val)]) := by
  obtain ⟨s, hslt, hcode, hbelow, hrep⟩ := reportCode_present table v0.val hs hlen hmem
  rw [step_SM table b p v0 h0 h2, isCode_SM_eval table b p v0 h0 h2]
  have hr := resolve_gt table v0.val p 0 (by omega) (by omega)
  simp only [Nat.cast_zero] at hr
  rw [hr, hrep, storedName_first _ table s hslt hcode hbelow]
  rfl

theorem scanLoop_ascii (table : List CodePoint) (b : List Byte)
    (hs : SortedByCode table) (hlen : table.length ≤ 1073741824)
    (hascii : ∀ v ∈ b, 1 ≤ v.val ∧ v.val < 128)
    (hpres : ∀ v ∈ b, ∃ cp ∈ table, cp.code = (v.val : Int)) :
    ∀ (fuel p : Nat), b.length - p ≤ fuel → p ≤ b.length →
      scanLoop table b fuel p
        = .ok ((b.drop p).map (fun v => Event.name (storedName table v.val))) := by
  intro fuel
  induction fuel with
  | zero =>
    intro p hfuel hp
    have : p = b.length := by omega
    subst this
    rw [scanLoop_at_end]
    simp
  | succ fuel ih =>
    intro p hfuel hp
    by_cases hlt : p < b.length
    · have h0 : b[p]? = some b[p] := List.getElem?_eq_getElem hlt
      have hin : b[p] ∈ b := List.getElem_mem _
      have hstep := step_ascii_present table b p b[p] hs hlen h0 (hascii _ hin).1
        (hascii _ hin).2 (hpres _ hin)
      rw [scanLoop, if_pos hlt]
      simp only [hstep]
      rw [ih (p + 1) (by omega) (by omega), List.drop_eq_getElem_cons hlt]
      rfl
    · have : p = b.length := by omega
      subst this
      rw [scanLoop_at_end]
      simp

/-- C13, where the code departs from it: the byte 0x00 is a 1-byte sequence
and the sorted table holds the code 0, yet the scan prints `Invalid encoding`
for it and no name, because `processInput` passes 0 as `max` for the 1-byte
tier and `isCode` tests `newCode <= max`; the next byte, 0x41, is resolved. -/
theorem ascii_nul_is_flagged :
    processInput [⟨0, "NULL"⟩, ⟨0x41, "LATIN CAPITAL LETTER A"⟩] [0x00, 0x41]
      = .ok [Event.invalidEncoding 0 0, Event.name "LATIN CAPITAL LETTER A"] := by
  decide

/-- ASCII sequencing where the code keeps it: for every buffer of bytes from
0x01 to 0x7F whose values are all present in the table, sorted by code (at most
`2^30` entries), the scan prints exactly one name per byte, in buffer order,
each the name stored for the byte's value (that of the first entry with this
code), and no diagnostic. -/
theorem ascii_sequencing (table : List CodePoint) (b : List Byte)
    (hs : SortedByCode table) (hlen : table.length ≤ 1073741824)
    (hascii : ∀ v ∈ b, 1 ≤ v.val ∧ v.val < 128)
    (hpres : ∀ v ∈ b, ∃ cp ∈ table, cp.code = (v.val : Int)) :
    processInput table b = .ok (b.map (fun v => Event.name (storedName table v.val))) ∧
    (∀ v ∈ b, ∃ cp ∈ table, cp.code = (v.val : Int) ∧ cp.name = storedName table v.val) := by
  constructor
  · have := scanLoop_ascii table b hs hlen hascii hpres b.length 0 (by omega) (Nat.zero_le _)
    simpa [processInput] using this
  · intro v hv
    exact storedName_mem _ table (hpres v hv)

/-- An instance of ASCII sequencing: the letters A and B. -/
theorem ascii_sequencing_witness :
    processInput [⟨0x41, "LATIN CAPITAL LETTER A"⟩, ⟨0x42, "LATIN CAPITAL LETTER B"⟩]
        [0x41, 0x42]
      = .ok [Event.name "LATIN CAPITAL LETTER A", Event.name "LATIN CAPITAL LETTER B"] :=
  (ascii_sequencing [⟨0x41, "LATIN CAPITAL LETTER A"⟩, ⟨0x42, "LATIN CAPITAL LETTER B"⟩]
    [0x41, 0x42] (by unfold SortedByCode; decide) (by decide)
    (by
      intro v hv
      simp only [List.mem_cons, List.mem_singleton, List.not_mem_nil, or_false] at hv
      rcases hv with h | h <;> subst h <;> decide)
    (by
      intro v hv
      simp only [List.mem_cons, List.mem_singleton, List.not_mem_nil, or_false] at hv
      rcases hv with h | h <;> subst h
      · exact ⟨⟨0x41, "LATIN CAPITAL LETTER A"⟩, by simp, rfl⟩
      · exact ⟨⟨0x42, "LATIN CAPITAL LETTER B"⟩, by simp, rfl⟩)).1

/-! ## The reconstructed value -/

theorem and_7F (x : Nat) : x &&& 0x7F = x % 128 := Nat.and_pow_two_sub_one_eq_mod x 7
theorem and_1F (x : Nat) : x &&& 0x1F = x % 32 := Nat.and_pow_two_sub_one_eq_mod x 5
theorem and_0F (x : Nat) : x &&& 0x0F = x % 16 := Nat.and_pow_two_sub_one_eq_mod x 4
theorem and_07 (x : Nat) : x &&& 0x07 = x % 8 := Nat.and_pow_two_sub_one_eq_mod x 3

theorem bitValue_eq_seqValue (l : List Nat) (h4 : l.length ≤ 4) : bitValue l = seqValue l := by
  match l, h4 with
  | [], _ => rfl
  | [x0], _ =>
    show (x0 &&& 0x7F) * 64 ^ 0 + 0 = x0 % 128
    rw [and_7F]; omega
  | [x0, x1], _ =>
    show (x0 &&& 0x1F) * 64 ^ 1 + ((x1 &&& 0x3F) * 64 ^ 0 + 0) = x0 % 32 * 64 + x1 % 64
    rw [and_1F, and_3F]; omega
  | [x0, x1, x2], _ =>
    show (x0 &&& 0x0F) * 64 ^ 2 + ((x1 &&& 0x3F) * 64 ^ 1 + ((x2 &&& 0x3F) * 64 ^ 0 + 0))
      = x0 % 16 * 4096 + x1 % 64 * 64 + x2 % 64
    rw [and_0F, and_3F, and_3F]; omega
  | [x0, x1, x2, x3], _ =>
    show (x0 &&& 0x07) * 64 ^ 3 + ((x1 &&& 0x3F) * 64 ^ 2 + ((x2 &&& 0x3F) * 64 ^ 1
        + ((x3 &&& 0x3F) * 64 ^ 0 + 0)))
      = x0 % 8 * 262144 + x1 % 64 * 4096 + x2 % 64 * 64 + x3 % 64
    rw [and_07, and_3F, and_3F, and_3F]; omega
  | _ :: _ :: _ :: _ :: _ :: _, h => simp at h

theorem window_length (b : List Byte) (p N : Nat) (h : p + N ≤ b.length) :
    (window b p N).length = N := by
  simp only [window, List.length_map, List.length_take, List.length_drop]
  omega

theorem window_lt (b : List Byte) (p N : Nat) : ∀ x ∈ window b p N, x < 256 := by
  intro x hx
  simp only [window, List.mem_map] at hx
  obtain ⟨v, _, hv⟩ := hx
  rw [← hv]
  exact v.isLt

theorem seqValue_lt_tierBound (l : List Nat) (h1 : 1 ≤ l.length) (h4 : l.length ≤ 4) :
    seqValue l < tierBound l.length := by
  match l, h1, h4 with
  | [], h, _ => simp at h
  | [x0], _, _ =>
    show x0 % 128 < 128
    omega
  | [x0, x1], _, _ =>
    show x0 % 32 * 64 + x1 % 64 < 2048
    omega
  | [x0, x1, x2], _, _ =>
    show x0 % 16 * 4096 + x1 % 64 * 64 + x2 % 64 < 65536
    omega
  | [x0, x1, x2, x3], _, _ =>
    show x0 % 8 * 262144 + x1 % 64 * 4096 + x2 % 64 * 64 + x3 % 64 < 2097152
    omega
  | _ :: _ :: _ :: _ :: _ :: _, _, h => simp at h

theorem tierCall_wellFormed (table : List CodePoint) (b : List Byte) (p N : Nat)
    (h1 : 1 ≤ N) (hw : WellFormedAt b p N) :
    tierCall table b p N = resolve table (seqValue (window b p N)) p (prevTierMax N) := by
  obtain ⟨hlen, ⟨v0, h0, hN⟩, hcont⟩ := hw
  rcases tierCall_eval table b p N v0 h0 hN h1 hlen with
    ⟨_, ht⟩ | ⟨i, w, hi1, hiN, hbad, hnc, _, _⟩
  · exact ht
  · obtain ⟨w2, hw2, hc2⟩ := hcont i hi1 hiN
    have : w = w2 := Option.some.inj (hbad.symm.trans hw2)
    subst this
    exact absurd hc2 hnc

theorem contLoop_XL (b : List Byte) (p : Nat) (v0 v1 v2 v3 : Byte)
    (h1 : b[p + 1]? = some v1) (h2 : b[p + 2]? = some v2) (h3 : b[p + 3]? = some v3)
    (c1 : isCont v1.val) (c2 : isCont v2.val) (c3 : isCont v3.val) :
    contLoop b (XL_BYTES - 1) p v0.val 0
      = .ok (p + 3, ((v0.val * 256 + v1.val) * 256 + v2.val) * 256 + v3.val, v3.val, true) := by
  have hv0 := v0.isLt
  have hv1 := v1.isLt
  have hv2 := v2.isLt
  have hsz : XL_BYTES - 1 = 2 + 1 := rfl
  rw [hsz, contLoop_cont b 2 p _ _ v1 h1 c1 (by omega),
    contLoop_cont b 1 (p + 1) _ _ v2 h2 c2 (by omega),
    contLoop_cont b 0 (p + 1 + 1) _ _ v3 h3 c3 (by omega)]
  rfl

/-- C14. Bit-exact reconstruction: on a structurally valid sequence of tier
`N` in 1..4 the value `newCode` that `isCode` tests and hands on is
`(b0 & m_N) * 64^(N-1)` plus the sum of `(b_i & 0x3F) * 64^(N-1-i)` over the
bytes of the sequence taken as 0..255. A byte from 0x80 up is read into the
`char` as a negative number and `CLEAR &` gives the byte back; for a 4-byte
sequence the word `code` after the three shifts has bit 31 set (it is
negative as an `int`) and the value extracted from it is still the formula. -/
theorem bit_exact (table : List CodePoint) (b : List Byte) :
    (∀ p N, 1 ≤ N → WellFormedAt b p N →
      tierCall table b p N = resolve table (bitValue (window b p N)) p (prevTierMax N) ∧
      (window b p N).length = N ∧ ∀ x ∈ window b p N, x < 256) ∧
    (∀ (i : Nat) (v : Byte), b[i]? = some v → 0x80 ≤ v.val →
      readChar b i = .ok ((v.val : Int) - 256) ∧ (v.val : Int) - 256 < 0 ∧
      CLEAR &&& bits32 ((v.val : Int) - 256) = v.val) ∧
    (∀ (p : Nat) (v0 v1 v2 v3 : Byte), b[p]? = some v0 → b[p + 1]? = some v1 →
      b[p + 2]? = some v2 → b[p + 3]? = some v3 → leadTier v0.val = 4 →
      isCont v1.val → isCont v2.val → isCont v3.val →
      contLoop b (XL_BYTES - 1) p v0.val 0
        = .ok (p + 3, ((v0.val * 256 + v1.val) * 256 + v2.val) * 256 + v3.val, v3.val,
            true) ∧
      sint32 (((v0.val * 256 + v1.val) * 256 + v2.val) * 256 + v3.val) < 0 ∧
      newCodeOf (((v0.val * 256 + v1.val) * 256 + v2.val) * 256 + v3.val) XL_BYTES XL_LOW_MASK
        = bitValue [v0.val, v1.val, v2.val, v3.val]) := by
  refine ⟨?_, ?_, ?_⟩
  · intro p N h1 hw
    have hN4 : N ≤ 4 := by
      obtain ⟨_, ⟨v0, _, hN⟩, _⟩ := hw
      exact hN ▸ leadTier_le _
    have hl := window_length b p N hw.1
    refine ⟨?_, hl, window_lt b p N⟩
    rw [tierCall_wellFormed table b p N h1 hw, bitValue_eq_seqValue _ (by omega)]
  · intro i v hv h80
    have hlt := v.isLt
    have hc := clear_char v
    have hr := readChar_some b i v hv
    rw [if_neg (by omega)] at hc hr
    exact ⟨hr, by omega, hc⟩
  · intro p v0 v1 v2 v3 _ h1 h2 h3 hN c1 c2 c3
    have hr := (leadTier_four _).mp hN
    have hv1 := v1.isLt
    have hv2 := v2.isLt
    have hv3 := v3.isLt
    refine ⟨contLoop_XL b p v0 v1 v2 v3 h1 h2 h3 c1 c2 c3, ?_, ?_⟩
    · unfold sint32
      rw [if_neg (by omega)]
      have hv0 := v0.isLt
      omega
    · rw [newCodeOf_XL v0.val v1.val v2.val v3.val v1.isLt v2.isLt v3.isLt,
        bitValue_eq_seqValue _ (by simp)]
      rfl

/-- Witness of C14: the 4-byte sequence of U+1F600. -/
theorem bit_exact_witness :
    contLoop [0xF0, 0x9F, 0x98, 0x80] (XL_BYTES - 1) 0 0xF0 0
        = .ok (3, 0xF09F9880, 0x80, true) ∧
    sint32 0xF09F9880 < 0 ∧
    newCodeOf 0xF09F9880 XL_BYTES XL_LOW_MASK = 0x1F600 :=
  (bit_exact [] [0xF0, 0x9F, 0x98, 0x80]).2.2 0 0xF0 0x9F 0x98 0x80 rfl rfl rfl rfl
    (by decide) (by decide) (by decide) (by decide)

/-- C19. Range of the values handed to the lookup: on a structurally valid
sequence of tier `N` the value is below `2^7`, `2^11`, `2^16`, `2^21`; it is
withheld from `reportCode` (one `Invalid encoding` line, whatever the table)
exactly when it is at most 0, 127, 2047, 65535; otherwise it lies in
1..0x1FFFFF and the iteration is the lookup of that value, with no other
test: so it is for the 3-byte sequences of the surrogates 0xD800..0xDFFF and
the 4-byte sequences of 0x110000..0x1FFFFF. -/
theorem lookup_value_range (table : List CodePoint) (b : List Byte) (p N : Nat)
    (h1 : 1 ≤ N) (hw : WellFormedAt b p N) :
    seqValue (window b p N) < tierBound N ∧
    (seqValue (window b p N) ≤ prevTierMax N →
      step table b p = .ok (p + N, [Event.invalidEncoding (seqValue (window b p N)) p])) ∧
    (prevTierMax N < seqValue (window b p N) →
      1 ≤ seqValue (window b p N) ∧ seqValue (window b p N) ≤ 0x1FFFFF ∧
      step table b p = advance p N (lookupOutcome table (seqValue (window b p N)) p)) ∧
    (N = 3 → 0xD800 ≤ seqValue (window b p N) → seqValue (window b p N) ≤ 0xDFFF →
      step table b p = advance p N (lookupOutcome table (seqValue (window b p N)) p)) ∧
    (N = 4 → 0x110000 ≤ seqValue (window b p N) →
      step table b p = advance p N (lookupOutcome table (seqValue (window b p N)) p)) := by
  have hN4 : N ≤ 4 := by
    obtain ⟨_, ⟨v0, _, hN⟩, _⟩ := hw
    exact hN ▸ leadTier_le _
  have hl := window_length b p N hw.1
  have hlt := seqValue_window_lt b p N
  have hbound : seqValue (window b p N) < tierBound N := by
    have := seqValue_lt_tierBound (window b p N) (by omega) (by omega)
    rwa [hl] at this
  have hpass : prevTierMax N < seqValue (window b p N) →
      step table b p = advance p N (lookupOutcome table (seqValue (window b p N)) p) := by
    intro h
    rw [step_wellFormed table b p N h1 hw, resolve_gt table _ p _ (by omega) h]
    rfl
  refine ⟨hbound, ?_, ?_, ?_, ?_⟩
  · intro h
    rw [step_wellFormed table b p N h1 hw, resolve_le table _ p _ (by omega) h]
    rfl
  · intro h
    exact ⟨by omega, by omega, hpass h⟩
  · intro h3 hlo _
    subst h3
    exact hpass (by have : prevTierMax 3 = 2047 := rfl; omega)
  · intro h4 hlo
    subst h4
    exact hpass (by have : prevTierMax 4 = 65535 := rfl; omega)

/-- Witness of C19: the 3-byte sequence of the surrogate U+D800 goes to the
lookup and its table entry is printed. -/
theorem lookup_value_range_witness :
    step [⟨0xD800, "SURROGATE D800"⟩] [0xED, 0xA0, 0x80] 0
      = .ok (3, [Event.name "SURROGATE D800"]) :=
  ((lookup_value_range [⟨0xD800, "SURROGATE D800"⟩] [0xED, 0xA0, 0x80] 0 3 (by decide)
    ⟨by decide, ⟨0xED, rfl, by decide⟩, fun j hj1 hj2 => by
      have : j = 1 ∨ j = 2 := by omega
      rcases this with h | h <;> subst h
      · exact ⟨0xA0, rfl, by decide⟩
      · exact ⟨0x80, rfl, by decide⟩⟩).2.2.2.1 rfl (by decide) (by decide)).trans
    (by decide)

/-! ## The bisection invariant -/

theorem bisect_unfold (table : List CodePoint) (code : Int) (fuel : Nat) (start end_ : Int) :
    bisect table code (fuel + 1) start end_
      = if start ≤ end_ then
          match bisectBody table code start end_ with
          | .error f => .error f
          | .ok (s2, e2) => bisect table code fuel s2 e2
        else .ok start := by
  rw [bisect]
  unfold bisectBody
  by_cases h : start ≤ end_
  · simp only [if_pos h]
    cases tableAt table (Int.tdiv (wrap32 (start + end_)) RESIZE) with
    | error f => rfl
    | ok cp =>
      by_cases hc : code > cp.code
      · simp only [if_pos hc]
      · simp only [if_neg hc]
  · simp only [if_neg h]

theorem bisectBody_eq (table : List CodePoint) (code : Int) (start end_ : Int) (m : Nat)
    (hmid : Int.tdiv (wrap32 (start + end_)) RESIZE = (m : Int)) (hm : m < table.length) :
    bisectBody table code start end_
      = if code > table[m].code then .ok ((m : Int) + 1, end_) else .ok (start, (m : Int) - 1) := by
  unfold bisectBody
  rw [hmid]
  dsimp only
  rw [tableAt_of_lt table m hm]

/-- One iteration of the loop on a window inside a table of at most `2^30`
entries: it reads inside the table and the window shrinks. -/
theorem bisectBody_decreases (table : List CodePoint) (code : Int)
    (hlen : table.length ≤ 1073741824) (start end_ : Int) (h0 : 0 ≤ start)
    (hse : start ≤ end_) (he : end_ < table.length) :
    ∃ s2 e2, bisectBody table code start end_ = .ok (s2, e2) ∧
      e2 - s2 < end_ - start ∧ start ≤ s2 ∧ e2 ≤ end_ ∧ s2 ≤ e2 + 1 := by
  have hw : wrap32 (start + end_) = start + end_ :=
    wrap32_of_range _ (by omega) (by omega)
  have hmid : Int.tdiv (wrap32 (start + end_)) RESIZE
      = (((start + end_) / 2).toNat : Int) := by
    rw [hw]
    unfold RESIZE
    rw [Int.tdiv_eq_ediv (by omega) (by omega)]
    omega
  have hm : ((start + end_) / 2).toNat < table.length := by omega
  have hm1 : start ≤ (((start + end_) / 2).toNat : Int) := by omega
  have hm2 : (((start + end_) / 2).toNat : Int) ≤ end_ := by omega
  rw [bisectBody_eq table code start end_ _ hmid hm]
  generalize ((start + end_) / 2).toNat = m at hm hm1 hm2
  by_cases hgt : code > table[m].code
  · rw [if_pos hgt]
    exact ⟨(m : Int) + 1, end_, rfl, by omega, by omega, by omega, by omega⟩
  · rw [if_neg hgt]
    exact ⟨start, (m : Int) - 1, rfl, by omega, by omega, by omega, by omega⟩

theorem countP_of_split (q : CodePoint → Bool) :
    ∀ (table : List CodePoint) (s : Nat), s ≤ table.length →
      (∀ (i : Nat) (h : i < table.length), i < s → q table[i] = true) →
      (∀ (i : Nat) (h : i < table.length), s ≤ i → q table[i] = false) →
      table.countP q = s := by
  intro table
  induction table with
  | nil => intro s hs _ _; simp at hs; simp [hs]
  | cons a rest ih =>
    intro s hs hlo hhi
    cases s with
    | zero =>
      have h0 := hhi 0 (by simp) (le_refl _)
      simp only [List.getElem_cons_zero] at h0
      rw [List.countP_cons, h0]
      have := ih 0 (Nat.zero_le _) (fun i _ hi => absurd hi (Nat.not_lt_zero i))
        (fun i h _ => by
          have := hhi (i + 1) (by simpa using h) (Nat.zero_le _)
          simpa using this)
      simp [this]
    | succ s =>
      have h0 := hlo 0 (by simp) (by omega)
      simp only [List.getElem_cons_zero] at h0
      rw [List.countP_cons, h0]
      have := ih s (by simpa using hs)
        (fun i h hi => by
          have := hlo (i + 1) (by simpa using h) (by omega)
          simpa using this)
        (fun i h hi => by
          have := hhi (i + 1) (by simpa using h) (by omega)
          simpa using this)
      simp [this]

/-- On a sorted table of at most `2^30` entries the final `start` of the
loop is the number of entries whose code is below `code`. -/
theorem bisect_eq_lowerBound (table : List CodePoint) (code : Int)
    (hs : SortedByCode table) (hlen : table.length ≤ 1073741824) :
    bisect table code (table.length + 1) 0 ((table.length : Int) - 1)
        = .ok (lowerBound table code : Int) ∧
      lowerBound table code ≤ table.length ∧
      (∀ (i : Nat) (h : i < table.length), i < lowerBound table code → table[i].code < code) ∧
      (∀ (i : Nat) (h : i < table.length), lowerBound table code ≤ i →
        code ≤ table[i].code) := by
  obtain ⟨s, h1, h2, h3, h4⟩ := bisect_lowerBound table code hs hlen
    (table.length + 1) 0 table.length (Nat.zero_le _) (le_refl _) (by omega)
    (fun i _ hi => absurd hi (Nat.not_lt_zero i)) (fun i h hi => absurd h (by omega))
  have hcount : lowerBound table code = s := by
    unfold lowerBound
    exact countP_of_split _ table s h2
      (fun i h hi => by simpa using h3 i h hi)
      (fun i h hi => by simpa using h4 i h hi)
  rw [hcount]
  simp only [Nat.cast_zero] at h1
  exact ⟨h1, h2, h3, h4⟩

/-- C18. Bisection invariant: on a table sorted ascending by code
(duplicates allowed, at most `2^30` entries) every iteration of the loop of
`reportCode` reads inside the table and strictly decreases `end - start`;
the loop, being one iteration followed by the loop, leaves with `start`
equal to the number of entries whose code is strictly less than `code`,
which is between 0 and `len`, every entry before it being smaller than
`code` and none from it on; so a hit prints the name of the first entry
with that code. -/
theorem bisection_invariant (table : List CodePoint) (code : Int)
    (hs : SortedByCode table) (hlen : table.length ≤ 1073741824) :
    (∀ start end_ : Int, 0 ≤ start → start ≤ end_ → end_ < table.length →
      ∃ s2 e2, bisectBody table code start end_ = .ok (s2, e2) ∧
        e2 - s2 < end_ - start ∧ start ≤ s2 ∧ e2 ≤ end_ ∧ s2 ≤ e2 + 1) ∧
    (∀ (fuel : Nat) (start end_ : Int),
      bisect table code (fuel + 1) start end_
        = if start ≤ end_ then
            match bisectBody table code start end_ with
            | .error f => .error f
            | .ok (s2, e2) => bisect table code fuel s2 e2
          else .ok start) ∧
    bisect table code (table.length + 1) 0 ((table.length : Int) - 1)
      = .ok (lowerBound table code : Int) ∧
    lowerBound table code ≤ table.length ∧
    (∀ (i : Nat) (h : i < table.length), i < lowerBound table code → table[i].code < code) ∧
    (∀ (i : Nat) (h : i < table.length), lowerBound table code ≤ i → code ≤ table[i].code) ∧
    ((∃ cp ∈ table, cp.code = code) →
      ∃ h : lowerBound table code < table.length,
        table[lowerBound table code].code = code ∧
        reportCode table code = .ok (true, [Event.name table[lowerBound table code].name])) := by
  obtain ⟨b1, b2, b3, b4⟩ := bisect_eq_lowerBound table code hs hlen
  refine ⟨fun start end_ h0 hse he => bisectBody_decreases table code hlen start end_ h0 hse he,
    fun fuel start end_ => bisect_unfold table code fuel start end_, b1, b2, b3, b4, ?_⟩
  intro hmem
  obtain ⟨s, hslt, hcode, hbelow, hrep⟩ := reportCode_present table code hs hlen hmem
  have hcount : lowerBound table code = s := by
    unfold lowerBound
    refine countP_of_split _ table s (by omega) (fun i h hi => by simpa using hbelow i h hi)
      (fun i h hi => ?_)
    have := sorted_getElem_le hs s i hslt h hi
    rw [hcode] at this
    simpa using this
  subst hcount
  exact ⟨hslt, hcode, hrep⟩

/-- Witness of C18: a table in which the code 0x42 occurs twice. -/
theorem bisection_invariant_witness :
    bisect [⟨0x41, "A"⟩, ⟨0x42, "B first"⟩, ⟨0x42, "B second"⟩, ⟨0x43, "C"⟩] 0x42 5 0 3
      = .ok 1 :=
  (bisection_invariant [⟨0x41, "A"⟩, ⟨0x42, "B first"⟩, ⟨0x42, "B second"⟩, ⟨0x43, "C"⟩]
    0x42 (by unfold SortedByCode; decide) (by decide)).2.2.1

/-! ## `compare_codes` and `loadTable` -/

/-- When the difference of the two codes fits an `int`, `compare_codes` is
that difference. -/
theorem compare_codes_of_range (p q : CodePoint) (h : IsInt32 (p.code - q.code)) :
    compare_codes p q = p.code - q.code :=
  wrap32_of_range _ h.1 h.2

/-- For codes from 0 to `2^31 - 1` the sign of `compare_codes` is the order
of the codes. -/
theorem compare_codes_sign (p q : CodePoint)
    (hp : 0 ≤ p.code ∧ p.code < 2147483648) (hq : 0 ≤ q.code ∧ q.code < 2147483648) :
    (compare_codes p q < 0 ↔ p.code < q.code) ∧
    (compare_codes p q = 0 ↔ p.code = q.code) ∧
    (0 < compare_codes p q ↔ q.code < p.code) := by
  rw [compare_codes_of_range p q ⟨by omega, by omega⟩]
  refine ⟨?_, ?_, ?_⟩ <;> constructor <;> intro h <;> omega

theorem sorted_of_chain (table : List CodePoint)
    (hrange : ∀ cp ∈ table, 0 ≤ cp.code ∧ cp.code < 2147483648)
    (hchain : table.Chain' (fun p q => compare_codes p q ≤ 0)) : SortedByCode table := by
  unfold SortedByCode
  induction table with
  | nil => exact List.Pairwise.nil
  | cons a rest ih =>
    have hrest : List.Pairwise (fun p q => p.code ≤ q.code) rest :=
      ih (fun cp h => hrange cp (List.mem_cons_of_mem _ h)) hchain.tail
    refine List.Pairwise.cons ?_ hrest
    intro c hc
    cases rest with
    | nil => simp at hc
    | cons d rest2 =>
      have had : compare_codes a d ≤ 0 := (List.chain'_cons.mp hchain).1
      have ha := hrange a (by simp)
      have hd := hrange d (by simp)
      have hle : a.code ≤ d.code := by
        have hs := compare_codes_sign a d ha hd
        by_contra hcon
        have := hs.2.2.mpr (by omega)
        omega
      rcases List.mem_cons.mp hc with e | e
      · rw [e]; exact hle
      · exact le_trans hle ((List.pairwise_cons.mp hrest).1 c e)

/-- When every parsed code is from 0 to `2^31 - 1`, whatever `loadTable`
leaves is a permutation of the parsed entries sorted ascending by code. -/
theorem loadTable_sorted_of_nonneg (parsed table : List CodePoint)
    (hrange : ∀ cp ∈ parsed, 0 ≤ cp.code ∧ cp.code < 2147483648)
    (hload : loadTable parsed table) :
    table.Perm parsed ∧ SortedByCode table :=
  ⟨hload.1, sorted_of_chain table (fun cp h => hrange cp (hload.1.mem_iff.mp h)) hload.2⟩

/-- C11, where the code departs from it: for the two records `7FFFFFFF` and
`FFFFFFFF` (stored in the `int` field as 2147483647 and -1), in this order,
`compare_codes` reports each entry as less than the other, so the table left
as it was parsed is in ascending order according to `compare_codes`, a
result `qsort` may return; it is not in ascending order of code. -/
theorem loadTable_leaves_unsorted :
    IsInt32 2147483647 ∧ IsInt32 (-1) ∧
    compare_codes ⟨2147483647, "A"⟩ ⟨-1, "B"⟩ < 0 ∧
    compare_codes ⟨-1, "B"⟩ ⟨2147483647, "A"⟩ < 0 ∧
    loadTable [⟨2147483647, "A"⟩, ⟨-1, "B"⟩] [⟨2147483647, "A"⟩, ⟨-1, "B"⟩] ∧
    ¬ SortedByCode [⟨2147483647, "A"⟩, ⟨-1, "B"⟩] := by
  refine ⟨by decide, by decide, by decide, by decide, ⟨List.Perm.refl _, ?_⟩, ?_⟩
  · exact List.chain'_cons.mpr ⟨by decide, List.chain'_singleton _⟩
  · unfold SortedByCode
    decide

/-- C20, where the code departs from it: for the codes 2147483647 and -1,
both 32-bit `int` values, the first is the greater, yet the 32-bit difference
computed by `compare_codes` is -2147483648, negative; and with the
arguments exchanged it is negative as well. -/
theorem compare_codes_wrong_sign :
    IsInt32 2147483647 ∧ IsInt32 (-1) ∧
    (⟨-1, "B"⟩ : CodePoint).code < (⟨2147483647, "A"⟩ : CodePoint).code ∧
    compare_codes ⟨2147483647, "A"⟩ ⟨-1, "B"⟩ = -2147483648 ∧
    compare_codes ⟨-1, "B"⟩ ⟨2147483647, "A"⟩ = -2147483648 := by
  decide

end UnUtf8
